import Mathlib

/-!
A k-d tree index (`mini-kd-database`): embedding and verification.

Shallow embedding of `src/Point.cpp` and `src/KDTree.cpp`.

* `double` coordinates are embedded as rationals (`ℚ`) and the arithmetic on them
  is exact, where the source rounds every difference, product, sum and square
  root to `double`.  The theorems below do not depend on that rounding: they use
  `equals` and the distances only as the tests that the code itself performs, on
  trees of any shape, or they evaluate them on small integers, where the sums are
  exact and the distances are ordered as their radicands are.  Nothing is stated
  here about which of two nearly equidistant points the rounded comparison
  prefers, how a rounded distance relates to the exact Euclidean distance, or
  what happens at the edge of the tolerance.
* `Point::distanceTo` returns `std::sqrt(sum)`.  The embedding keeps the
  radicand `sum`; `a < b` on distances is `a < b` on radicands, and
  `|diff| < dist` is `diff * diff < radicand`.
* `std::unique_ptr<KDNode>` is the inductive type `KDNode` (`nil` is `nullptr`).
* C++ exceptions are values of `KDError` in the `Except` monad.
-/

namespace MiniKD

/-! ## Errors -/

/-- The exceptions thrown by the source, plus the dereference of an empty
`unique_ptr` (undefined behaviour in C++). -/
inductive KDError where
  | invalidArgument
  | outOfRange
  | runtimeError
  | nullDereference
  deriving DecidableEq, Repr

/-! ## Point (`Point.h`, `Point.cpp`) -/

/-- Class `Point`: a coordinate vector and a label. -/
structure Point where
  coordinates : List ℚ
  value : String
  deriving DecidableEq, Repr

/-- The literal `1e-10` of `Point::equals`: the `double` nearest to one
ten-thousand-millionth, which is `7737125245533627 / 2 ^ 86`. -/
def tolerance : ℚ := 7737125245533627 / 77371252455336267181195264

/-- Source `Point::getDimensions`. -/
def Point.getDimensions (p : Point) : Nat := p.coordinates.length

/-- Source `Point::getCoordinate`: throws `std::out_of_range` on a bad index. -/
def Point.getCoordinate (p : Point) (dimension : Int) : Except KDError ℚ :=
  if dimension < 0 ∨ dimension ≥ (p.coordinates.length : Int) then
    .error .outOfRange
  else
    .ok (p.coordinates.getD dimension.toNat 0)

/-- Source `Point::equals`: same length and no coordinate pair further apart than the
tolerance.  The difference is taken exactly; the source rounds it to `double`
before the comparison. -/
def Point.equals (p other : Point) : Bool :=
  if p.coordinates.length ≠ other.coordinates.length then
    false
  else
    (p.coordinates.zip other.coordinates).all
      (fun xy => !(decide (|xy.1 - xy.2| > tolerance)))

/-- The accumulation loop of `Point::distanceTo`: the sum of the squared
coordinate differences, taken exactly; the source rounds each difference, square
and partial sum to `double`. -/
def Point.sumSquares (p : Point) (coords : List ℚ) : ℚ :=
  (p.coordinates.zip coords).foldl (fun sum xy => sum + (xy.1 - xy.2) * (xy.1 - xy.2)) 0

/-- Source `Point::distanceTo(const std::vector<double>&)`: the accumulated sum of
squared differences (the radicand of the returned square root, which the source
rounds to `double`); throws `std::invalid_argument` when the lengths differ. -/
def Point.distanceTo (p : Point) (coords : List ℚ) : Except KDError ℚ :=
  if coords.length ≠ p.coordinates.length then
    .error .invalidArgument
  else
    .ok (p.sumSquares coords)

/-! ## Nodes and the tree (`KDTree.h`) -/

/-- A `std::unique_ptr<KDNode>`: either `nullptr` or a node owning a point and
its two children. -/
inductive KDNode where
  | nil
  | node (point : Point) (left right : KDNode)
  deriving DecidableEq, Repr

/-- Class `KDTree`: the root and the fixed dimensionality (positive, by the
constructor). -/
structure KDTree where
  root : KDNode
  dimensions : Nat
  deriving DecidableEq, Repr

/-- Source `KDTree::countNodes`. -/
def countNodes : KDNode → Nat
  | .nil => 0
  | .node _ left right => 1 + countNodes left + countNodes right

/-- Source `KDTree::size`. -/
def KDTree.size (t : KDTree) : Nat := countNodes t.root

/-- Source `KDTree::isEmpty`. -/
def KDTree.isEmpty (t : KDTree) : Bool :=
  match t.root with
  | .nil => true
  | .node _ _ _ => false

/-- Source `KDTree::KDTree(int dims)`. -/
def KDTree.create (dims : Int) : Except KDError KDTree :=
  if dims ≤ 0 then .error .invalidArgument else .ok ⟨.nil, dims.toNat⟩

/-! ## Insert -/

/-- Source `KDTree::insertNode`. -/
def insertNode (dimensions : Nat) : KDNode → Point → Nat → Except KDError KDNode
  | .nil, point, _ => .ok (.node point .nil .nil)
  | .node np left right, point, depth => do
    let currentDim := depth % dimensions
    let a ← point.getCoordinate currentDim
    let b ← np.getCoordinate currentDim
    if a < b then
      let left' ← insertNode dimensions left point (depth + 1)
      pure (.node np left' right)
    else
      let right' ← insertNode dimensions right point (depth + 1)
      pure (.node np left right')

/-- Source `KDTree::insert`. -/
def KDTree.insert (t : KDTree) (point : Point) : Except KDError KDTree :=
  if point.getDimensions ≠ t.dimensions then
    .error .invalidArgument
  else do
    let root' ← insertNode t.dimensions t.root point 0
    pure ⟨root', t.dimensions⟩

/-- A sequence of `insert` calls, stopping at the first exception. -/
def KDTree.insertAll (t : KDTree) : List Point → Except KDError KDTree
  | [] => .ok t
  | p :: ps => do
    let t' ← t.insert p
    t'.insertAll ps

/-! ## Search -/

/-- The loop of `KDTree::search`, from node `current` at depth `depth`. -/
def searchLoop (dimensions : Nat) : KDNode → Point → Nat → Except KDError Bool
  | .nil, _, _ => .ok false
  | .node np left right, point, depth =>
    if point.equals np then
      .ok true
    else do
      let currentDim := depth % dimensions
      let a ← point.getCoordinate currentDim
      let b ← np.getCoordinate currentDim
      if a < b then
        searchLoop dimensions left point (depth + 1)
      else
        searchLoop dimensions right point (depth + 1)

/-- Source `KDTree::search`. -/
def KDTree.search (t : KDTree) (point : Point) : Except KDError Bool :=
  searchLoop t.dimensions t.root point 0

/-! ## Delete -/

/-- The candidate update of `KDTree::findMin`:
`if (cand && cand->point[dimension] < minNode->point[dimension]) minNode = move(cand)`. -/
def takeIfSmaller (dimension : Nat) (cand minNode : KDNode) : Except KDError KDNode :=
  match cand, minNode with
  | .nil, _ => .ok minNode
  | .node _ _ _, .nil => .error .nullDereference
  | .node cp cl cr, .node mp ml mr => do
    let a ← cp.getCoordinate dimension
    let b ← mp.getCoordinate dimension
    if a < b then pure (.node cp cl cr) else pure (.node mp ml mr)

/-- Source `KDTree::findMin`.  The argument is passed by value, so the function owns
the subtree; it returns the node it selected.  Children handed to a recursive
call by `std::move` are no longer attached to `node` afterwards. -/
def findMin (dimensions : Nat) : KDNode → Nat → Nat → Except KDError KDNode
  | .nil, _, _ => .ok .nil
  | .node np left right, dimension, currentDim =>
    if dimension = currentDim then
      match left with
      | .nil => .ok (.node np .nil right)
      | .node lp ll lr =>
        findMin dimensions (.node lp ll lr) dimension ((currentDim + 1) % dimensions)
    else do
      let leftMin ← findMin dimensions left dimension ((currentDim + 1) % dimensions)
      let rightMin ← findMin dimensions right dimension ((currentDim + 1) % dimensions)
      let minNode := KDNode.node np .nil .nil
      let minNode ← takeIfSmaller dimension leftMin minNode
      let minNode ← takeIfSmaller dimension rightMin minNode
      pure minNode

/-- Source `KDTree::deleteNode` applied to an empty `unique_ptr`: its first branch,
`if (!node) return nullptr;`. -/
def deleteNodeNull (_point : Point) (_depth : Nat) : Except KDError KDNode :=
  .ok .nil

/-- Source `KDTree::deleteNode`.

In the two-children branch the source calls
`findMin(std::move(node->right), ...)`: `findMin` takes its argument by value,
so `node->right` is moved from and is `nullptr` when
`deleteNode(std::move(node->right), minNode->point, depth + 1)` runs next; that
call is therefore `deleteNodeNull`. -/
def deleteNode (dimensions : Nat) : KDNode → Point → Nat → Except KDError KDNode
  | .nil, _, _ => .ok .nil
  | .node np left right, point, depth =>
    let currentDim := depth % dimensions
    if point.equals np then
      match left, right with
      | .nil, .nil => .ok .nil
      | .nil, .node rp rl rr => .ok (.node rp rl rr)
      | .node lp ll lr, .nil => .ok (.node lp ll lr)
      | .node lp ll lr, .node rp rl rr => do
        let minNode ← findMin dimensions (.node rp rl rr) currentDim ((depth + 1) % dimensions)
        match minNode with
        | .nil => .error .nullDereference
        | .node mp _ _ =>
          let right' ← deleteNodeNull mp (depth + 1)
          pure (.node mp (.node lp ll lr) right')
    else do
      let a ← point.getCoordinate currentDim
      let b ← np.getCoordinate currentDim
      if a < b then
        let left' ← deleteNode dimensions left point (depth + 1)
        pure (.node np left' right)
      else
        let right' ← deleteNode dimensions right point (depth + 1)
        pure (.node np left right')

/-- Source `KDTree::remove`: the flag returned and the tree afterwards. -/
def KDTree.remove (t : KDTree) (point : Point) : Except KDError (Bool × KDTree) :=
  if point.getDimensions ≠ t.dimensions then
    .ok (false, t)
  else do
    let initialSize := t.size
    let root' ← deleteNode t.dimensions t.root point 0
    let t' : KDTree := ⟨root', t.dimensions⟩
    pure (decide (t'.size < initialSize), t')

/-! ## Range query -/

/-- The `for` loop of `KDTree::rangeSearch` that computes `inRange`, from index
`i` with `fuel = dimensions - i` iterations left; it breaks at the first
coordinate outside `[min[i], max[i]]`. -/
def inRangeLoop (point : Point) (min max : List ℚ) : Nat → Nat → Except KDError Bool
  | 0, _ => .ok true
  | fuel + 1, i => do
    let c ← point.getCoordinate i
    if c < min.getD i 0 ∨ c > max.getD i 0 then
      pure false
    else
      inRangeLoop point min max fuel (i + 1)

/-- Source `KDTree::rangeSearch`; `results` is the output vector, appended to in
visiting order. -/
def rangeSearch (dimensions : Nat) (min max : List ℚ) :
    KDNode → Nat → List Point → Except KDError (List Point)
  | .nil, _, results => .ok results
  | .node point left right, depth, results => do
    let inRange ← inRangeLoop point min max dimensions 0
    let results := if inRange then results ++ [point] else results
    let currentDim := depth % dimensions
    let c ← point.getCoordinate currentDim
    let results ←
      if min.getD currentDim 0 ≤ c then
        rangeSearch dimensions min max left (depth + 1) results
      else
        pure results
    if max.getD currentDim 0 ≥ c then
      rangeSearch dimensions min max right (depth + 1) results
    else
      pure results

/-- Source `KDTree::rangeQuery`. -/
def KDTree.rangeQuery (t : KDTree) (min max : List ℚ) : Except KDError (List Point) :=
  if min.length ≠ t.dimensions ∨ max.length ≠ t.dimensions then
    .error .invalidArgument
  else
    rangeSearch t.dimensions min max t.root 0 []

/-! ## Nearest neighbour -/

/-- The recursive `KDTree::nearestNeighbor`; the pair is `(best, bestDist)`,
passed by reference in the source.  `near` and `far` are spelled out in the two
branches of `diff < 0`. -/
def nearestNeighborRec (dimensions : Nat) (target : List ℚ) :
    KDNode → Nat → Point × ℚ → Except KDError (Point × ℚ)
  | .nil, _, st => .ok st
  | .node point left right, depth, st => do
    let dist ← point.distanceTo target
    let st := if dist < st.2 then (point, dist) else st
    let currentDim := depth % dimensions
    let c ← point.getCoordinate currentDim
    let diff := target.getD currentDim 0 - c
    if diff < 0 then
      let st ← nearestNeighborRec dimensions target left (depth + 1) st
      if diff * diff < st.2 then
        nearestNeighborRec dimensions target right (depth + 1) st
      else
        pure st
    else
      let st ← nearestNeighborRec dimensions target right (depth + 1) st
      if diff * diff < st.2 then
        nearestNeighborRec dimensions target left (depth + 1) st
      else
        pure st

/-- Source `KDTree::nearestNeighbor(const std::vector<double>&)`. -/
def KDTree.nearestNeighbor (t : KDTree) (target : List ℚ) : Except KDError Point :=
  if target.length ≠ t.dimensions then
    .error .invalidArgument
  else
    match t.root with
    | .nil => .error .runtimeError
    | .node rp left right => do
      let bestDist ← rp.distanceTo target
      let st ← nearestNeighborRec t.dimensions target (.node rp left right) 0 (rp, bestDist)
      pure st.1

/-! ## k nearest neighbours -/

/-- Source `maxHeap.emplace`: the `std::priority_queue` ordered by `a.second < b.second`
is kept as a list in descending order of distance, so that `top()` is the head
and `pop()` drops it. -/
def heapPush (x : Point × ℚ) (heap : List (Point × ℚ)) : List (Point × ℚ) :=
  List.orderedInsert (fun a b => b.2 ≤ a.2) x heap

/-- The candidate update of the `search` lambda of `KDTree::kNearestNeighbors`. -/
def heapOffer (k : Nat) (x : Point × ℚ) (heap : List (Point × ℚ)) :
    Except KDError (List (Point × ℚ)) :=
  if heap.length < k then
    .ok (heapPush x heap)
  else
    match heap with
    | [] => .error .nullDereference
    | top :: rest => if x.2 < top.2 then .ok (heapPush x rest) else .ok (top :: rest)

/-- The test `maxHeap.size() < k || std::abs(diff) < maxHeap.top().second`. -/
def heapAdmits (k : Nat) (diff : ℚ) (heap : List (Point × ℚ)) : Except KDError Bool :=
  if heap.length < k then
    .ok true
  else
    match heap with
    | [] => .error .nullDereference
    | top :: _ => .ok (decide (diff * diff < top.2))

/-- The `search` lambda of `KDTree::kNearestNeighbors`, with `k` already cast to
`size_t`. -/
def kSearch (dimensions : Nat) (target : List ℚ) (k : Nat) :
    KDNode → Nat → List (Point × ℚ) → Except KDError (List (Point × ℚ))
  | .nil, _, heap => .ok heap
  | .node point left right, depth, heap => do
    let dist ← point.distanceTo target
    let heap ← heapOffer k (point, dist) heap
    let currentDim := depth % dimensions
    let c ← point.getCoordinate currentDim
    let diff := target.getD currentDim 0 - c
    if diff < 0 then
      let heap ← kSearch dimensions target k left (depth + 1) heap
      if (← heapAdmits k diff heap) then
        kSearch dimensions target k right (depth + 1) heap
      else
        pure heap
    else
      let heap ← kSearch dimensions target k right (depth + 1) heap
      if (← heapAdmits k diff heap) then
        kSearch dimensions target k left (depth + 1) heap
      else
        pure heap

/-- Source `KDTree::kNearestNeighbors`: the heap is emptied from its top (farthest
first) and the result reversed. -/
def KDTree.kNearestNeighbors (t : KDTree) (target : List ℚ) (k : Int) :
    Except KDError (List Point) :=
  if target.length ≠ t.dimensions then
    .error .invalidArgument
  else if k ≤ 0 then
    .ok []
  else
    match t.root with
    | .nil => .ok []
    | .node rp left right => do
      let heap ← kSearch t.dimensions target k.toNat (.node rp left right) 0 []
      pure (heap.map Prod.fst).reverse

/-! ## Update, clear, getters -/

/-- Source `KDTree::getDimensions`. -/
def KDTree.getDimensions (t : KDTree) : Int := t.dimensions

/-- Source `KDTree::clear`: `root.reset()`. -/
def KDTree.clear (t : KDTree) : KDTree := ⟨.nil, t.dimensions⟩

/-- The `while` loop of `KDTree::update` for `oldPoint.equals(newPoint)`: it
walks down as `search` does and overwrites the value of the first node whose
point equals `oldPoint`; the result is the subtree afterwards. -/
def updateValueLoop (dimensions : Nat) : KDNode → Point → String → Nat → Except KDError KDNode
  | .nil, _, _, _ => .ok .nil
  | .node np left right, oldPoint, val, depth =>
    if oldPoint.equals np then
      .ok (.node ⟨np.coordinates, val⟩ left right)
    else do
      let currentDim := depth % dimensions
      let a ← oldPoint.getCoordinate currentDim
      let b ← np.getCoordinate currentDim
      if a < b then
        let left' ← updateValueLoop dimensions left oldPoint val (depth + 1)
        pure (.node np left' right)
      else
        let right' ← updateValueLoop dimensions right oldPoint val (depth + 1)
        pure (.node np left right')

/-- Source `KDTree::update`: the tree after a call that returns. -/
def KDTree.update (t : KDTree) (oldPoint newPoint : Point) : Except KDError KDTree :=
  if oldPoint.getDimensions ≠ t.dimensions ∨ newPoint.getDimensions ≠ t.dimensions then
    .error .invalidArgument
  else if oldPoint.equals newPoint then do
    let root' ← updateValueLoop t.dimensions t.root oldPoint newPoint.value 0
    pure ⟨root', t.dimensions⟩
  else do
    let r ← t.remove oldPoint
    if r.1 then r.2.insert newPoint else pure r.2

/-! ## The object after a call

The mutating methods work on the member `root`.  A call that throws before
`root` is touched leaves the object as it was; `root = f(std::move(root), ...)`
empties `root` before `f` runs, so an exception escaping from `f` leaves an
empty tree behind. -/

/-- The object after `insert(point)`, whether the call returned or threw. -/
def KDTree.afterInsert (t : KDTree) (point : Point) : KDTree :=
  if point.getDimensions ≠ t.dimensions then
    t
  else
    match insertNode t.dimensions t.root point 0 with
    | .ok root' => ⟨root', t.dimensions⟩
    | .error _ => ⟨.nil, t.dimensions⟩

/-- The object after `remove(point)`, whether the call returned or threw. -/
def KDTree.afterRemove (t : KDTree) (point : Point) : KDTree :=
  if point.getDimensions ≠ t.dimensions then
    t
  else
    match deleteNode t.dimensions t.root point 0 with
    | .ok root' => ⟨root', t.dimensions⟩
    | .error _ => ⟨.nil, t.dimensions⟩

/-- The object after `update(oldPoint, newPoint)`, whether the call returned or
threw. -/
def KDTree.afterUpdate (t : KDTree) (oldPoint newPoint : Point) : KDTree :=
  if oldPoint.getDimensions ≠ t.dimensions ∨ newPoint.getDimensions ≠ t.dimensions then
    t
  else if oldPoint.equals newPoint then
    match updateValueLoop t.dimensions t.root oldPoint newPoint.value 0 with
    | .ok root' => ⟨root', t.dimensions⟩
    | .error _ => t
  else
    match t.remove oldPoint with
    | .ok (true, _) => (t.afterRemove oldPoint).afterInsert newPoint
    | _ => t.afterRemove oldPoint

/-- A call of one of the mutating methods. -/
inductive Op where
  | insert (point : Point)
  | remove (point : Point)
  | update (oldPoint newPoint : Point)
  | clear
  deriving DecidableEq, Repr

/-- The object after one mutating call. -/
def KDTree.applyOp (t : KDTree) : Op → KDTree
  | .insert p => t.afterInsert p
  | .remove p => t.afterRemove p
  | .update o n => t.afterUpdate o n
  | .clear => t.clear

/-- The object after a sequence of mutating calls. -/
def KDTree.run (t : KDTree) (ops : List Op) : KDTree :=
  ops.foldl KDTree.applyOp t

/-! ## Balanced bulk build -/

/-- The comparator lambda of `KDTree::buildTree`:
`a.getCoordinate(currentDim) < b.getCoordinate(currentDim)`. -/
def coordLess (currentDim : Nat) (a b : Point) : Except KDError Bool := do
  let x ← a.getCoordinate currentDim
  let y ← b.getCoordinate currentDim
  pure (decide (x < y))

/-- The shape of `std::nth_element` as `buildTree` calls it: a comparator, the
elements of the range `[first, last)` and the position `nth - first`; the result
is the range afterwards, or the exception that escaped from the comparator.
The standard library is not part of the repository, so `buildTree` takes the
function as a parameter. -/
abbrev NthElement : Type :=
  (Point → Point → Except KDError Bool) → List Point → Nat → Except KDError (List Point)

/-- The part of the contract of `std::nth_element` that the proofs use: when the
comparator throws on no pair of elements of the range, the call returns and the
range afterwards is a rearrangement of the range before. -/
def NthElementSpec (nth : NthElement) : Prop :=
  ∀ (comp : Point → Point → Except KDError Bool) (range : List Point) (n : Nat),
    (∀ a ∈ range, ∀ b ∈ range, ∃ r, comp a b = .ok r) →
    ∃ w, nth comp range n = .ok w ∧ w.Perm range

/-- Source `KDTree::buildTree`.  The vector `points` is passed by reference and
rearranged in place, so the function returns the tree together with the vector
afterwards.  `points[mid]` is an unchecked read.  The `int` parameters `depth`,
`left` and `right` are taken non-negative. -/
def buildTree (nth : NthElement) (dimensions : Nat) (points : List Point)
    (depth left right : Nat) : Except KDError (KDNode × List Point) :=
  if _h : left ≥ right then
    .ok (.nil, points)
  else
    let currentDim := depth % dimensions
    let mid := left + (right - left) / 2
    match nth (coordLess currentDim) ((points.drop left).take (right - left)) (mid - left) with
    | .error e => .error e
    | .ok range =>
      let points1 := points.take left ++ range ++ points.drop right
      match points1[mid]? with
      | none => .error .nullDereference
      | some pm =>
        match buildTree nth dimensions points1 (depth + 1) left mid with
        | .error e => .error e
        | .ok (leftTree, points2) =>
          match buildTree nth dimensions points2 (depth + 1) (mid + 1) right with
          | .error e => .error e
          | .ok (rightTree, points3) => .ok (.node pm leftTree rightTree, points3)
termination_by right - left
decreasing_by
  all_goals simp_wf
  · omega
  · omega

/-- An implementation of `std::nth_element` by insertion: the step that puts `x`
in front of the first element it compares smaller than. -/
def insertBefore (comp : Point → Point → Except KDError Bool) (x : Point) :
    List Point → Except KDError (List Point)
  | [] => .ok [x]
  | y :: ys => do
    if (← comp x y) then
      pure (x :: y :: ys)
    else
      let rest ← insertBefore comp x ys
      pure (y :: rest)

/-- An implementation of `std::nth_element` that sorts the whole range by
insertion. -/
def nthBySorting : NthElement := fun comp range _ =>
  range.foldrM (fun x acc => insertBefore comp x acc) []

/-! ## Specification vocabulary -/

/-- Coordinate `i` of a point, total (0 outside the vector). -/
def Point.coord (p : Point) (i : Nat) : ℚ := p.coordinates.getD i 0

/-- The stored points of a subtree, node first, then left, then right. -/
def KDNode.points : KDNode → List Point
  | .nil => []
  | .node p left right => p :: (left.points ++ right.points)

/-- Every stored point has `dims` coordinates. -/
def KDNode.WellDim (dims : Nat) (n : KDNode) : Prop :=
  ∀ q ∈ n.points, q.coordinates.length = dims

/-- The class invariant of `KDTree` that the constructor and `insert` establish:
positive dimensionality, and every stored point of that dimensionality. -/
def KDTree.WF (t : KDTree) : Prop :=
  0 < t.dimensions ∧ t.root.WellDim t.dimensions

/-- The search-tree invariant for a subtree whose root is at depth `depth`:
at a node with discriminator `depth % dims`, the points on the left are strictly
smaller and the points on the right greater or equal on that coordinate. -/
def KDNode.Inv (dims : Nat) : KDNode → Nat → Prop
  | .nil, _ => True
  | .node p left right, depth =>
    (∀ q ∈ left.points, q.coord (depth % dims) < p.coord (depth % dims)) ∧
    (∀ q ∈ right.points, p.coord (depth % dims) ≤ q.coord (depth % dims)) ∧
    left.Inv dims (depth + 1) ∧ right.Inv dims (depth + 1)

/-! ## Exception-free counterparts

On a well-formed tree and arguments of the tree's dimensionality no exception is
raised; each operation then agrees with a pure function. -/

/-- Value computed by `insertNode` when nothing throws. -/
def insertNodeP (dims : Nat) : KDNode → Point → Nat → KDNode
  | .nil, p, _ => .node p .nil .nil
  | .node np left right, p, depth =>
    if p.coord (depth % dims) < np.coord (depth % dims) then
      .node np (insertNodeP dims left p (depth + 1)) right
    else
      .node np left (insertNodeP dims right p (depth + 1))

/-- Value computed by `searchLoop` when nothing throws. -/
def searchP (dims : Nat) : KDNode → Point → Nat → Bool
  | .nil, _, _ => false
  | .node np left right, p, depth =>
    if p.equals np then true
    else if p.coord (depth % dims) < np.coord (depth % dims) then
      searchP dims left p (depth + 1)
    else
      searchP dims right p (depth + 1)

/-- Value computed by `takeIfSmaller` when nothing throws. -/
def takeIfSmallerP (dimension : Nat) (cand minNode : KDNode) : KDNode :=
  match cand, minNode with
  | .nil, _ => minNode
  | .node _ _ _, .nil => .nil
  | .node cp cl cr, .node mp ml mr =>
    if cp.coord dimension < mp.coord dimension then .node cp cl cr else .node mp ml mr

/-- Value computed by `findMin` when nothing throws. -/
def findMinP (dims : Nat) : KDNode → Nat → Nat → KDNode
  | .nil, _, _ => .nil
  | .node np left right, dimension, currentDim =>
    if dimension = currentDim then
      match left with
      | .nil => .node np .nil right
      | .node lp ll lr => findMinP dims (.node lp ll lr) dimension ((currentDim + 1) % dims)
    else
      takeIfSmallerP dimension (findMinP dims right dimension ((currentDim + 1) % dims))
        (takeIfSmallerP dimension (findMinP dims left dimension ((currentDim + 1) % dims))
          (.node np .nil .nil))

/-- Value computed by `deleteNode` when nothing throws. -/
def deleteNodeP (dims : Nat) : KDNode → Point → Nat → KDNode
  | .nil, _, _ => .nil
  | .node np left right, p, depth =>
    if p.equals np then
      match left, right with
      | .nil, .nil => .nil
      | .nil, .node rp rl rr => .node rp rl rr
      | .node lp ll lr, .nil => .node lp ll lr
      | .node lp ll lr, .node rp rl rr =>
        match findMinP dims (.node rp rl rr) (depth % dims) ((depth + 1) % dims) with
        | .nil => .nil
        | .node mp _ _ => .node mp (.node lp ll lr) .nil
    else if p.coord (depth % dims) < np.coord (depth % dims) then
      .node np (deleteNodeP dims left p (depth + 1)) right
    else
      .node np left (deleteNodeP dims right p (depth + 1))

/-- The box test of the brute-force scan: `min[i] <= coord[i] <= max[i]` for
every `i < dims`. -/
def inBox (dims : Nat) (min max : List ℚ) (p : Point) : Bool :=
  (List.range dims).all fun i =>
    decide (min.getD i 0 ≤ p.coord i) && decide (p.coord i ≤ max.getD i 0)

/-- Value computed by `inRangeLoop` when nothing throws. -/
def inRangeP (p : Point) (min max : List ℚ) : Nat → Nat → Bool
  | 0, _ => true
  | fuel + 1, i =>
    if p.coord i < min.getD i 0 ∨ p.coord i > max.getD i 0 then false
    else inRangeP p min max fuel (i + 1)

/-- Points appended to `results` by `rangeSearch` when nothing throws. -/
def rangeSearchP (dims : Nat) (min max : List ℚ) : KDNode → Nat → List Point
  | .nil, _ => []
  | .node p left right, depth =>
    (if inRangeP p min max dims 0 then [p] else []) ++
    ((if min.getD (depth % dims) 0 ≤ p.coord (depth % dims) then
        rangeSearchP dims min max left (depth + 1) else []) ++
     (if max.getD (depth % dims) 0 ≥ p.coord (depth % dims) then
        rangeSearchP dims min max right (depth + 1) else []))

/-- Value computed by `nearestNeighborRec` when nothing throws. -/
def nnP (dims : Nat) (target : List ℚ) : KDNode → Nat → Point × ℚ → Point × ℚ
  | .nil, _, st => st
  | .node p left right, depth, st =>
    if target.getD (depth % dims) 0 - p.coord (depth % dims) < 0 then
      if (target.getD (depth % dims) 0 - p.coord (depth % dims)) *
          (target.getD (depth % dims) 0 - p.coord (depth % dims)) <
          (nnP dims target left (depth + 1)
            (if p.sumSquares target < st.2 then (p, p.sumSquares target) else st)).2 then
        nnP dims target right (depth + 1)
          (nnP dims target left (depth + 1)
            (if p.sumSquares target < st.2 then (p, p.sumSquares target) else st))
      else
        nnP dims target left (depth + 1)
          (if p.sumSquares target < st.2 then (p, p.sumSquares target) else st)
    else
      if (target.getD (depth % dims) 0 - p.coord (depth % dims)) *
          (target.getD (depth % dims) 0 - p.coord (depth % dims)) <
          (nnP dims target right (depth + 1)
            (if p.sumSquares target < st.2 then (p, p.sumSquares target) else st)).2 then
        nnP dims target left (depth + 1)
          (nnP dims target right (depth + 1)
            (if p.sumSquares target < st.2 then (p, p.sumSquares target) else st))
      else
        nnP dims target right (depth + 1)
          (if p.sumSquares target < st.2 then (p, p.sumSquares target) else st)

/-- Value computed by `heapOffer` when nothing throws. -/
def heapOfferP (k : Nat) (x : Point × ℚ) (heap : List (Point × ℚ)) : List (Point × ℚ) :=
  if heap.length < k then
    heapPush x heap
  else
    match heap with
    | [] => []
    | top :: rest => if x.2 < top.2 then heapPush x rest else top :: rest

/-- Value computed by `heapAdmits` when nothing throws. -/
def heapAdmitsP (k : Nat) (diff : ℚ) (heap : List (Point × ℚ)) : Bool :=
  if heap.length < k then
    true
  else
    match heap with
    | [] => false
    | top :: _ => decide (diff * diff < top.2)

/-- Value computed by `kSearch` when nothing throws. -/
def kSearchP (dims : Nat) (target : List ℚ) (k : Nat) :
    KDNode → Nat → List (Point × ℚ) → List (Point × ℚ)
  | .nil, _, heap => heap
  | .node p left right, depth, heap =>
    if target.getD (depth % dims) 0 - p.coord (depth % dims) < 0 then
      if heapAdmitsP k (target.getD (depth % dims) 0 - p.coord (depth % dims))
          (kSearchP dims target k left (depth + 1)
            (heapOfferP k (p, p.sumSquares target) heap)) then
        kSearchP dims target k right (depth + 1)
          (kSearchP dims target k left (depth + 1)
            (heapOfferP k (p, p.sumSquares target) heap))
      else
        kSearchP dims target k left (depth + 1) (heapOfferP k (p, p.sumSquares target) heap)
    else
      if heapAdmitsP k (target.getD (depth % dims) 0 - p.coord (depth % dims))
          (kSearchP dims target k right (depth + 1)
            (heapOfferP k (p, p.sumSquares target) heap)) then
        kSearchP dims target k left (depth + 1)
          (kSearchP dims target k right (depth + 1)
            (heapOfferP k (p, p.sumSquares target) heap))
      else
        kSearchP dims target k right (depth + 1) (heapOfferP k (p, p.sumSquares target) heap)

/-- A stored point paired with its distance to `target`, as `kSearch` offers it
to the heap. -/
def withDist (target : List ℚ) (q : Point) : Point × ℚ := (q, q.sumSquares target)

/-- The point at the root of `x`, if any, is no larger on coordinate `r` than
every point of `S`. -/
def LeAll (r : Nat) (x : KDNode) (S : List Point) : Prop :=
  ∀ mp ml mr, x = .node mp ml mr → ∀ q ∈ S, mp.coord r ≤ q.coord r

/-- Height of a subtree: the number of nodes on its longest downward path. -/
def height : KDNode → Nat
  | .nil => 0
  | .node _ left right => 1 + max (height left) (height right)

/-- Every node with `n` nodes below and including it has `n / 2` of them on its
left and `n - 1 - n / 2` on its right. -/
def Balanced : KDNode → Prop
  | .nil => True
  | .node p left right =>
    countNodes left = countNodes (.node p left right) / 2 ∧
    countNodes right =
      countNodes (.node p left right) - 1 - countNodes (.node p left right) / 2 ∧
    Balanced left ∧ Balanced right

/-- At every node the two subtree sizes differ by at most 1. -/
def AlmostEven : KDNode → Prop
  | .nil => True
  | .node _ left right =>
    countNodes left ≤ countNodes right + 1 ∧ countNodes right ≤ countNodes left + 1 ∧
    AlmostEven left ∧ AlmostEven right

/-- Root reached from `root` by inserting the points of `ps` in order. -/
def insertAllP (dims : Nat) (root : KDNode) (ps : List Point) : KDNode :=
  ps.foldl (fun n p => insertNodeP dims n p 0) root

/-! ## Example data -/

/-- Four 2-d points whose insertion gives a root with two children and a right
subtree of two nodes. -/
def exFour : List Point :=
  [⟨[5, 5], "a"⟩, ⟨[3, 3], "b"⟩, ⟨[7, 7], "c"⟩, ⟨[8, 8], "d"⟩]

/-- The tree obtained by inserting `exFour` into an empty 2-d tree. -/
def exFourTree : KDTree :=
  ⟨.node ⟨[5, 5], "a"⟩ (.node ⟨[3, 3], "b"⟩ .nil .nil)
    (.node ⟨[7, 7], "c"⟩ .nil (.node ⟨[8, 8], "d"⟩ .nil .nil)), 2⟩

/-- Three 2-d points whose insertion gives a root without a left child. -/
def exThree : List Point :=
  [⟨[5, 5], "a"⟩, ⟨[7, 3], "b"⟩, ⟨[8, 1], "c"⟩]

/-- The tree obtained by inserting `exThree` into an empty 2-d tree. -/
def exThreeTree : KDTree :=
  ⟨.node ⟨[5, 5], "a"⟩ .nil (.node ⟨[7, 3], "b"⟩ (.node ⟨[8, 1], "c"⟩ .nil .nil) .nil), 2⟩

/-- The six points of the concrete scenario, in insertion order. -/
def exSix : List Point :=
  [⟨[2, 3], "A"⟩, ⟨[5, 4], "B"⟩, ⟨[9, 6], "C"⟩, ⟨[4, 7], "D"⟩, ⟨[8, 1], "E"⟩, ⟨[7, 2], "F"⟩]

/-- The tree obtained by inserting `exSix` into an empty 2-d tree. -/
def exSixTree : KDTree :=
  ⟨.node ⟨[2, 3], "A"⟩ .nil
    (.node ⟨[5, 4], "B"⟩
      (.node ⟨[8, 1], "E"⟩ (.node ⟨[7, 2], "F"⟩ .nil .nil) .nil)
      (.node ⟨[9, 6], "C"⟩ (.node ⟨[4, 7], "D"⟩ .nil .nil) .nil)), 2⟩

/-- A 2-d tree holding (5,5) and, to its right, (7,7). -/
def exTwoTree : KDTree :=
  ⟨.node ⟨[5, 5], "a"⟩ .nil (.node ⟨[7, 7], "c"⟩ .nil .nil), 2⟩

/-- The tree left by removing (5,5) from `exThreeTree`: (7,3) spliced up to the
root, with (8,1) on its left although 8 >= 7. -/
def exSplicedTree : KDTree :=
  ⟨.node ⟨[7, 3], "b"⟩ (.node ⟨[8, 1], "c"⟩ .nil .nil) .nil, 2⟩

/-- A vector of two points of which the first has no coordinates. -/
def exRagged : List Point :=
  [⟨[], "e"⟩, ⟨[1, 2], "f"⟩]

/-! ## Basic facts -/

theorem getCoordinate_ok (p : Point) (i : Nat) (h : i < p.coordinates.length) :
    p.getCoordinate (i : Int) = .ok (p.coord i) := by
  unfold Point.getCoordinate Point.coord
  have h1 : ¬ ((i : Int) < 0 ∨ (i : Int) ≥ (p.coordinates.length : Int)) := by
    push_neg
    exact ⟨Int.natCast_nonneg i, by exact_mod_cast h⟩
  rw [if_neg h1]
  simp

theorem getCoordinate_mod (p : Point) (dims depth : Nat) (hd : 0 < dims)
    (h : p.coordinates.length = dims) :
    p.getCoordinate ((depth % dims : Nat) : Int) = .ok (p.coord (depth % dims)) :=
  getCoordinate_ok p _ (by rw [h]; exact Nat.mod_lt _ hd)

theorem WellDim_node {dims : Nat} {p : Point} {l r : KDNode} :
    (KDNode.node p l r).WellDim dims ↔
      p.coordinates.length = dims ∧ l.WellDim dims ∧ r.WellDim dims := by
  simp only [KDNode.WellDim, KDNode.points, List.mem_cons, List.mem_append]
  constructor
  · intro h
    exact ⟨h p (Or.inl rfl), fun q hq => h q (Or.inr (Or.inl hq)),
      fun q hq => h q (Or.inr (Or.inr hq))⟩
  · rintro ⟨h1, h2, h3⟩ q (rfl | hq | hq)
    · exact h1
    · exact h2 q hq
    · exact h3 q hq

theorem WellDim_nil (dims : Nat) : KDNode.nil.WellDim dims := by
  intro q hq
  simp [KDNode.points] at hq

theorem countNodes_eq_length (n : KDNode) : countNodes n = n.points.length := by
  induction n with
  | nil => rfl
  | node p l r ihl ihr =>
    simp [countNodes, KDNode.points, ihl, ihr]
    omega

theorem equals_refl (p : Point) : p.equals p = true := by
  unfold Point.equals
  simp only [ne_eq, not_true_eq_false, if_false, List.all_eq_true]
  intro xy hxy
  have : xy.1 = xy.2 := by
    have := List.mem_iff_get.1 hxy
    obtain ⟨n, hn⟩ := this
    rw [← hn]
    simp
  simp only [this, sub_self, abs_zero, tolerance]
  norm_num

/-! ## Insert -/

theorem insertNode_eq (dims : Nat) (hd : 0 < dims) (p : Point)
    (hp : p.coordinates.length = dims) (n : KDNode) (hn : n.WellDim dims) (depth : Nat) :
    insertNode dims n p depth = .ok (insertNodeP dims n p depth) := by
  induction n generalizing depth with
  | nil => rfl
  | node np l r ihl ihr =>
    obtain ⟨h1, h2, h3⟩ := WellDim_node.1 hn
    simp only [insertNode, insertNodeP, getCoordinate_mod _ _ _ hd hp,
      getCoordinate_mod _ _ _ hd h1, bind, Except.bind, pure, Except.pure]
    split
    · rw [ihl h2]
    · rw [ihr h3]

theorem insertNodeP_points (dims : Nat) (p : Point) (n : KDNode) (depth : Nat) :
    (insertNodeP dims n p depth).points.Perm (p :: n.points) := by
  induction n generalizing depth with
  | nil => simp [insertNodeP, KDNode.points]
  | node np l r ihl ihr =>
    simp only [insertNodeP]
    split
    · simp only [KDNode.points]
      have := ihl (depth + 1)
      calc np :: ((insertNodeP dims l p (depth + 1)).points ++ r.points)
          |>.Perm (np :: ((p :: l.points) ++ r.points)) :=
            (List.Perm.append_right _ this).cons np
        _ |>.Perm (p :: np :: (l.points ++ r.points)) := by
            simpa using List.Perm.swap p np _
    · simp only [KDNode.points]
      have := ihr (depth + 1)
      calc np :: (l.points ++ (insertNodeP dims r p (depth + 1)).points)
          |>.Perm (np :: (l.points ++ (p :: r.points))) :=
            (List.Perm.append_left _ this).cons np
        _ |>.Perm (np :: p :: (l.points ++ r.points)) :=
            (List.perm_middle).cons np
        _ |>.Perm (p :: np :: (l.points ++ r.points)) := List.Perm.swap p np _

theorem insertNodeP_mem (dims : Nat) (p q : Point) (n : KDNode) (depth : Nat) :
    q ∈ (insertNodeP dims n p depth).points ↔ q = p ∨ q ∈ n.points := by
  rw [(insertNodeP_points dims p n depth).mem_iff, List.mem_cons]

theorem insertNodeP_WellDim (dims : Nat) (p : Point) (hp : p.coordinates.length = dims)
    (n : KDNode) (hn : n.WellDim dims) (depth : Nat) :
    (insertNodeP dims n p depth).WellDim dims := by
  intro q hq
  rcases (insertNodeP_mem dims p q n depth).1 hq with rfl | h
  · exact hp
  · exact hn q h

theorem insertNodeP_Inv (dims : Nat) (p : Point) (n : KDNode) (depth : Nat)
    (h : n.Inv dims depth) : (insertNodeP dims n p depth).Inv dims depth := by
  induction n generalizing depth with
  | nil => simp [insertNodeP, KDNode.Inv, KDNode.points]
  | node np l r ihl ihr =>
    obtain ⟨h1, h2, h3, h4⟩ := h
    simp only [insertNodeP]
    split
    · rename_i hlt
      refine ⟨?_, h2, ihl _ h3, h4⟩
      intro q hq
      rcases (insertNodeP_mem dims p q l _).1 hq with rfl | hq
      · exact hlt
      · exact h1 q hq
    · rename_i hge
      refine ⟨h1, ?_, h3, ihr _ h4⟩
      intro q hq
      rcases (insertNodeP_mem dims p q r _).1 hq with rfl | hq
      · exact not_lt.1 hge
      · exact h2 q hq

theorem insert_eq (t : KDTree) (hwf : t.WF) (p : Point)
    (hp : p.getDimensions = t.dimensions) :
    t.insert p = .ok ⟨insertNodeP t.dimensions t.root p 0, t.dimensions⟩ := by
  unfold KDTree.insert
  rw [if_neg (by simpa using hp)]
  simp only [insertNode_eq t.dimensions hwf.1 p hp t.root hwf.2 0, bind, Except.bind,
    pure, Except.pure]

theorem insert_WF (t : KDTree) (hwf : t.WF) (p : Point)
    (hp : p.getDimensions = t.dimensions) :
    (KDTree.mk (insertNodeP t.dimensions t.root p 0) t.dimensions).WF :=
  ⟨hwf.1, insertNodeP_WellDim _ p hp _ hwf.2 0⟩

theorem insertAll_eq (ps : List Point) (t : KDTree) (hwf : t.WF)
    (hps : ∀ p ∈ ps, p.getDimensions = t.dimensions) :
    t.insertAll ps = .ok ⟨insertAllP t.dimensions t.root ps, t.dimensions⟩ := by
  induction ps generalizing t with
  | nil => rfl
  | cons p ps ih =>
    have hp := hps p (List.mem_cons_self _ _)
    simp only [KDTree.insertAll, insert_eq t hwf p hp, bind, Except.bind]
    rw [ih _ (insert_WF t hwf p hp) (fun q hq => hps q (List.mem_cons_of_mem _ hq))]
    rfl

theorem insertAllP_points (dims : Nat) (ps : List Point) (root : KDNode) :
    (insertAllP dims root ps).points.Perm (root.points ++ ps) := by
  induction ps generalizing root with
  | nil => simp [insertAllP]
  | cons p ps ih =>
    have h1 := ih (insertNodeP dims root p 0)
    have h2 := insertNodeP_points dims p root 0
    calc (insertAllP dims root (p :: ps)).points
        |>.Perm ((insertNodeP dims root p 0).points ++ ps) := h1
      _ |>.Perm ((p :: root.points) ++ ps) := List.Perm.append_right _ h2
      _ |>.Perm (root.points ++ p :: ps) := by
          simpa using (@List.perm_middle _ p root.points ps).symm

theorem insertAllP_WellDim (dims : Nat) (ps : List Point) (root : KDNode)
    (hr : root.WellDim dims) (hps : ∀ p ∈ ps, p.coordinates.length = dims) :
    (insertAllP dims root ps).WellDim dims := by
  intro q hq
  rcases List.mem_append.1 ((insertAllP_points dims ps root).mem_iff.1 hq) with h | h
  · exact hr q h
  · exact hps q h

theorem insertAllP_Inv (dims : Nat) (ps : List Point) (root : KDNode)
    (hr : root.Inv dims 0) : (insertAllP dims root ps).Inv dims 0 := by
  induction ps generalizing root with
  | nil => exact hr
  | cons p ps ih => exact ih _ (insertNodeP_Inv dims p root 0 hr)

theorem create_eq (d : Int) (hd : 0 < d) : KDTree.create d = .ok ⟨.nil, d.toNat⟩ := by
  unfold KDTree.create
  rw [if_neg (not_le.2 hd)]

theorem create_WF (d : Int) (hd : 0 < d) : (KDTree.mk .nil d.toNat).WF :=
  ⟨by simpa using hd, WellDim_nil _⟩

/-! ## Search -/

theorem searchLoop_eq (dims : Nat) (hd : 0 < dims) (p : Point)
    (hp : p.coordinates.length = dims) (n : KDNode) (hn : n.WellDim dims) (depth : Nat) :
    searchLoop dims n p depth = .ok (searchP dims n p depth) := by
  induction n generalizing depth with
  | nil => rfl
  | node np l r ihl ihr =>
    obtain ⟨h1, h2, h3⟩ := WellDim_node.1 hn
    simp only [searchLoop, searchP]
    split
    · rfl
    · simp only [getCoordinate_mod _ _ _ hd hp, getCoordinate_mod _ _ _ hd h1, bind,
        Except.bind]
      split
      · exact ihl h2 _
      · exact ihr h3 _

theorem searchP_insert_self (dims : Nat) (p : Point) (n : KDNode) (depth : Nat) :
    searchP dims (insertNodeP dims n p depth) p depth = true := by
  induction n generalizing depth with
  | nil => simp [insertNodeP, searchP, equals_refl]
  | node np l r ihl ihr =>
    simp only [insertNodeP]
    split
    · rename_i hlt
      simp only [searchP, hlt, if_true]
      split
      · rfl
      · exact ihl _
    · rename_i hge
      simp only [searchP, hge, if_false]
      split
      · rfl
      · exact ihr _

theorem searchP_insert_mono (dims : Nat) (p q : Point) (n : KDNode) (depth : Nat)
    (h : searchP dims n p depth = true) :
    searchP dims (insertNodeP dims n q depth) p depth = true := by
  induction n generalizing depth with
  | nil => simp [searchP] at h
  | node np l r ihl ihr =>
    simp only [searchP] at h
    simp only [insertNodeP]
    by_cases he : p.equals np = true
    · split <;> simp [searchP, he]
    · simp only [he, if_false] at h
      by_cases hp : p.coord (depth % dims) < np.coord (depth % dims)
      · simp only [hp, if_true] at h
        split
        · simp only [searchP, he, hp, if_true, if_false]
          exact ihl _ h
        · simp only [searchP, he, hp, if_true, if_false]
          exact h
      · simp only [hp, if_false] at h
        split
        · simp only [searchP, he, hp, if_false]
          exact h
        · simp only [searchP, he, hp, if_false]
          exact ihr _ h

theorem searchP_insertAllP_mono (dims : Nat) (p : Point) (ps : List Point) (root : KDNode)
    (h : searchP dims root p 0 = true) :
    searchP dims (insertAllP dims root ps) p 0 = true := by
  induction ps generalizing root with
  | nil => exact h
  | cons q ps ih => exact ih _ (searchP_insert_mono dims p q root 0 h)

theorem searchP_insertAllP (dims : Nat) (ps : List Point) (root : KDNode) (p : Point)
    (hp : p ∈ ps) : searchP dims (insertAllP dims root ps) p 0 = true := by
  induction ps generalizing root with
  | nil => simp at hp
  | cons q ps ih =>
    rcases List.mem_cons.1 hp with rfl | h
    · exact searchP_insertAllP_mono dims p ps _ (searchP_insert_self dims p root 0)
    · exact ih _ h

/-! ## Delete -/

theorem takeIfSmallerP_cases (dimension : Nat) (cand m : KDNode) (hm : m ≠ .nil) :
    takeIfSmallerP dimension cand m = cand ∧ cand ≠ .nil ∨
      takeIfSmallerP dimension cand m = m := by
  cases cand with
  | nil => right; cases m <;> rfl
  | node cp cl cr =>
    cases m with
    | nil => exact absurd rfl hm
    | node mp ml mr =>
      simp only [takeIfSmallerP]
      split
      · left; exact ⟨rfl, by simp⟩
      · right; rfl

theorem findMinP_diff (dims : Nat) (np : Point) (l r : KDNode) (dimension currentDim : Nat)
    (h : dimension ≠ currentDim) :
    findMinP dims (.node np l r) dimension currentDim =
      takeIfSmallerP dimension (findMinP dims r dimension ((currentDim + 1) % dims))
        (takeIfSmallerP dimension (findMinP dims l dimension ((currentDim + 1) % dims))
          (.node np .nil .nil)) := by
  cases l <;> simp [findMinP, h]

theorem findMin_diff (dims : Nat) (np : Point) (l r : KDNode) (dimension currentDim : Nat)
    (h : dimension ≠ currentDim) :
    findMin dims (.node np l r) dimension currentDim =
      (findMin dims l dimension ((currentDim + 1) % dims)).bind fun leftMin =>
      (findMin dims r dimension ((currentDim + 1) % dims)).bind fun rightMin =>
      (takeIfSmaller dimension leftMin (.node np .nil .nil)).bind fun m1 =>
      (takeIfSmaller dimension rightMin m1).bind fun m2 => .ok m2 := by
  cases l <;> simp only [findMin, h, if_false] <;> rfl

theorem takeIfSmallerP_ne_nil (dimension : Nat) (cand m : KDNode) (hm : m ≠ .nil) :
    takeIfSmallerP dimension cand m ≠ .nil := by
  rcases takeIfSmallerP_cases dimension cand m hm with ⟨h, h'⟩ | h
  · rw [h]; exact h'
  · rw [h]; exact hm

theorem takeIfSmallerP_subset (dimension : Nat) (cand m : KDNode) (hm : m ≠ .nil) :
    ∀ q ∈ (takeIfSmallerP dimension cand m).points, q ∈ cand.points ∨ q ∈ m.points := by
  intro q hq
  rcases takeIfSmallerP_cases dimension cand m hm with ⟨h, _⟩ | h
  · rw [h] at hq; exact Or.inl hq
  · rw [h] at hq; exact Or.inr hq

theorem findMinP_ne_nil (dims : Nat) (n : KDNode) (dimension currentDim : Nat)
    (hn : n ≠ .nil) : findMinP dims n dimension currentDim ≠ .nil := by
  induction n generalizing currentDim with
  | nil => exact absurd rfl hn
  | node np l r ihl ihr =>
    by_cases hdc : dimension = currentDim
    · cases l with
      | nil => simp [findMinP, hdc]
      | node lp ll lr =>
        simp only [findMinP, hdc, if_true]
        exact hdc ▸ ihl _ (by simp)
    · rw [findMinP_diff _ _ _ _ _ _ hdc]
      exact takeIfSmallerP_ne_nil _ _ _ (takeIfSmallerP_ne_nil _ _ _ (by simp))

theorem findMinP_subset (dims : Nat) (n : KDNode) (dimension currentDim : Nat) :
    ∀ q ∈ (findMinP dims n dimension currentDim).points, q ∈ n.points := by
  induction n generalizing currentDim with
  | nil => simp [findMinP, KDNode.points]
  | node np l r ihl ihr =>
    by_cases hdc : dimension = currentDim
    · cases l with
      | nil => simp [findMinP, hdc, KDNode.points]
      | node lp ll lr =>
        simp only [findMinP, hdc, if_true]
        intro q hq
        have := (hdc ▸ ihl ((currentDim + 1) % dims)) q hq
        simp only [KDNode.points, List.mem_cons, List.mem_append] at this ⊢
        tauto
    · rw [findMinP_diff _ _ _ _ _ _ hdc]
      intro q hq
      simp only [KDNode.points, List.mem_cons, List.mem_append]
      rcases takeIfSmallerP_subset _ _ _ (takeIfSmallerP_ne_nil _ _ _ (by simp)) q hq with h | h
      · exact Or.inr (Or.inr (ihr _ q h))
      · rcases takeIfSmallerP_subset _ _ _ (by simp) q h with h | h
        · exact Or.inr (Or.inl (ihl _ q h))
        · simp only [KDNode.points, List.mem_cons, List.append_nil, List.not_mem_nil,
            or_false] at h
          exact Or.inl h

theorem takeIfSmaller_eq (dims dimension : Nat) (hdim : dimension < dims) (cand m : KDNode)
    (hc : cand.WellDim dims) (hm : m.WellDim dims) (hne : m ≠ .nil) :
    takeIfSmaller dimension cand m = .ok (takeIfSmallerP dimension cand m) := by
  cases cand with
  | nil => cases m <;> rfl
  | node cp cl cr =>
    cases m with
    | nil => exact absurd rfl hne
    | node mp ml mr =>
      have h1 := (WellDim_node.1 hc).1
      have h2 := (WellDim_node.1 hm).1
      simp only [takeIfSmaller, takeIfSmallerP,
        getCoordinate_ok cp dimension (by rw [h1]; exact hdim),
        getCoordinate_ok mp dimension (by rw [h2]; exact hdim), bind, Except.bind,
        pure, Except.pure]
      split <;> rfl

theorem WellDim_of_subset {dims : Nat} {a b : KDNode} (h : ∀ q ∈ a.points, q ∈ b.points)
    (hb : b.WellDim dims) : a.WellDim dims :=
  fun q hq => hb q (h q hq)

theorem takeIfSmallerP_WellDim (dims dimension : Nat) (cand m : KDNode)
    (hc : cand.WellDim dims) (hm : m.WellDim dims) (hne : m ≠ .nil) :
    (takeIfSmallerP dimension cand m).WellDim dims := by
  rcases takeIfSmallerP_cases dimension cand m hne with ⟨h, _⟩ | h
  · rw [h]; exact hc
  · rw [h]; exact hm

theorem findMin_eq (dims : Nat) (n : KDNode) (hn : n.WellDim dims) (dimension : Nat)
    (hdim : dimension < dims) (currentDim : Nat) :
    findMin dims n dimension currentDim = .ok (findMinP dims n dimension currentDim) := by
  induction n generalizing currentDim with
  | nil => rfl
  | node np l r ihl ihr =>
    obtain ⟨h1, h2, h3⟩ := WellDim_node.1 hn
    by_cases hdc : dimension = currentDim
    · cases l with
      | nil => simp [findMin, findMinP, hdc]
      | node lp ll lr =>
        simp only [findMin, findMinP, hdc, if_true]
        exact hdc ▸ ihl h2 _
    · have hl := WellDim_of_subset (findMinP_subset dims l dimension ((currentDim + 1) % dims)) h2
      have hr := WellDim_of_subset (findMinP_subset dims r dimension ((currentDim + 1) % dims)) h3
      have hnp : (KDNode.node np .nil .nil).WellDim dims :=
        WellDim_node.2 ⟨h1, WellDim_nil _, WellDim_nil _⟩
      have e1 := takeIfSmaller_eq dims dimension hdim _ _ hl hnp (by simp)
      have e2 := takeIfSmaller_eq dims dimension hdim _ _ hr
        (takeIfSmallerP_WellDim dims dimension _ _ hl hnp (by simp))
        (takeIfSmallerP_ne_nil _ _ _ (by simp))
      rw [findMin_diff _ _ _ _ _ _ hdc, findMinP_diff _ _ _ _ _ _ hdc, ihl h2, ihr h3]
      simp only [Except.bind, e1, e2]

theorem deleteNode_nil (dims : Nat) (p : Point) (depth : Nat) :
    deleteNode dims .nil p depth = deleteNodeNull p depth := rfl

theorem deleteNode_ne (dims : Nat) (np : Point) (l r : KDNode) (p : Point) (depth : Nat)
    (h : p.equals np = false) :
    deleteNode dims (.node np l r) p depth =
      (p.getCoordinate ((depth % dims : Nat) : Int)).bind fun a =>
      (np.getCoordinate ((depth % dims : Nat) : Int)).bind fun b =>
      if a < b then
        (deleteNode dims l p (depth + 1)).bind fun l' => .ok (.node np l' r)
      else
        (deleteNode dims r p (depth + 1)).bind fun r' => .ok (.node np l r') := by
  cases l <;> cases r <;> simp only [deleteNode, h] <;> rfl

theorem deleteNodeP_ne (dims : Nat) (np : Point) (l r : KDNode) (p : Point) (depth : Nat)
    (h : p.equals np = false) :
    deleteNodeP dims (.node np l r) p depth =
      if p.coord (depth % dims) < np.coord (depth % dims) then
        .node np (deleteNodeP dims l p (depth + 1)) r
      else
        .node np l (deleteNodeP dims r p (depth + 1)) := by
  cases l <;> cases r <;> simp [deleteNodeP, h]

theorem deleteNode_eq (dims : Nat) (hd : 0 < dims) (p : Point)
    (hp : p.coordinates.length = dims) (n : KDNode) (hn : n.WellDim dims) (depth : Nat) :
    deleteNode dims n p depth = .ok (deleteNodeP dims n p depth) := by
  induction n generalizing depth with
  | nil => rfl
  | node np l r ihl ihr =>
    obtain ⟨h1, h2, h3⟩ := WellDim_node.1 hn
    by_cases he : p.equals np = true
    · cases l with
      | nil => cases r <;> simp [deleteNode, deleteNodeP, he]
      | node lp ll lr =>
        cases r with
        | nil => simp [deleteNode, deleteNodeP, he]
        | node rp rl rr =>
          have hf := findMin_eq dims (.node rp rl rr) h3 (depth % dims) (Nat.mod_lt _ hd)
            ((depth + 1) % dims)
          have hne := findMinP_ne_nil dims (.node rp rl rr) (depth % dims)
            ((depth + 1) % dims) (by simp)
          simp only [deleteNode, deleteNodeP, he, if_true, hf, bind, Except.bind]
          cases hm : findMinP dims (.node rp rl rr) (depth % dims) ((depth + 1) % dims) with
          | nil => exact absurd hm hne
          | node mp ml mr => rfl
    · have he' : p.equals np = false := by simpa using he
      rw [deleteNode_ne _ _ _ _ _ _ he', deleteNodeP_ne _ _ _ _ _ _ he',
        getCoordinate_mod _ _ _ hd hp, getCoordinate_mod _ _ _ hd h1]
      simp only [Except.bind]
      split
      · rw [ihl h2]
      · rw [ihr h3]

theorem deleteNodeP_of_search_false (dims : Nat) (p : Point) (n : KDNode) (depth : Nat)
    (h : searchP dims n p depth = false) : deleteNodeP dims n p depth = n := by
  induction n generalizing depth with
  | nil => rfl
  | node np l r ihl ihr =>
    simp only [searchP] at h
    by_cases he : p.equals np = true
    · simp [he] at h
    · have he' : p.equals np = false := by simpa using he
      rw [deleteNodeP_ne _ _ _ _ _ _ he']
      simp only [he', Bool.false_eq_true, if_false] at h
      split
      · rename_i hlt
        rw [if_pos hlt] at h
        rw [ihl _ h]
      · rename_i hge
        rw [if_neg hge] at h
        rw [ihr _ h]

theorem deleteNodeP_count_lt (dims : Nat) (p : Point) (n : KDNode) (depth : Nat)
    (h : searchP dims n p depth = true) :
    countNodes (deleteNodeP dims n p depth) < countNodes n := by
  induction n generalizing depth with
  | nil => simp [searchP] at h
  | node np l r ihl ihr =>
    by_cases he : p.equals np = true
    · cases l with
      | nil => cases r <;> simp [deleteNodeP, he, countNodes]
      | node lp ll lr =>
        cases r with
        | nil => simp [deleteNodeP, he, countNodes]
        | node rp rl rr =>
          simp only [deleteNodeP, he, if_true]
          cases hm : findMinP dims (.node rp rl rr) (depth % dims) ((depth + 1) % dims) with
          | nil => simp [countNodes]
          | node mp ml mr =>
            simp only [countNodes]
            omega
    · have he' : p.equals np = false := by simpa using he
      rw [deleteNodeP_ne _ _ _ _ _ _ he']
      simp only [searchP, he', Bool.false_eq_true, if_false] at h
      split
      · rename_i hlt
        rw [if_pos hlt] at h
        have := ihl _ h
        simp only [countNodes]
        omega
      · rename_i hge
        rw [if_neg hge] at h
        have := ihr _ h
        simp only [countNodes]
        omega

theorem searchP_true_mem (dims : Nat) (p : Point) (n : KDNode) (depth : Nat)
    (h : searchP dims n p depth = true) : ∃ q ∈ n.points, p.equals q = true := by
  induction n generalizing depth with
  | nil => simp [searchP] at h
  | node np l r ihl ihr =>
    simp only [searchP] at h
    by_cases he : p.equals np = true
    · exact ⟨np, by simp [KDNode.points], he⟩
    · rw [if_neg he] at h
      split at h
      · obtain ⟨q, hq, hq'⟩ := ihl _ h
        exact ⟨q, by simp [KDNode.points, hq], hq'⟩
      · obtain ⟨q, hq, hq'⟩ := ihr _ h
        exact ⟨q, by simp [KDNode.points, hq], hq'⟩

theorem searchP_false_of_none (dims : Nat) (p : Point) (n : KDNode) (depth : Nat)
    (h : ∀ q ∈ n.points, p.equals q = false) : searchP dims n p depth = false := by
  by_contra hc
  obtain ⟨q, hq, hq'⟩ := searchP_true_mem dims p n depth (by simpa using hc)
  rw [h q hq] at hq'
  exact Bool.false_ne_true hq'

theorem deleteNodeP_subset (dims : Nat) (p : Point) (n : KDNode) (depth : Nat) :
    ∀ q ∈ (deleteNodeP dims n p depth).points, q ∈ n.points := by
  induction n generalizing depth with
  | nil => simp [deleteNodeP]
  | node np l r ihl ihr =>
    by_cases he : p.equals np = true
    · cases l with
      | nil =>
        cases r <;> simp [deleteNodeP, he, KDNode.points]
        intro q hq
        tauto
      | node lp ll lr =>
        cases r with
        | nil =>
          simp [deleteNodeP, he, KDNode.points]
          intro q hq
          tauto
        | node rp rl rr =>
          simp only [deleteNodeP, he, if_true]
          have hsub := findMinP_subset dims (.node rp rl rr) (depth % dims) ((depth + 1) % dims)
          cases hm : findMinP dims (.node rp rl rr) (depth % dims) ((depth + 1) % dims) with
          | nil => simp [KDNode.points]
          | node mp ml mr =>
            rw [hm] at hsub
            have hmp := hsub mp (by simp [KDNode.points])
            intro q hq
            simp only [KDNode.points, List.mem_cons, List.mem_append, List.append_nil,
              List.not_mem_nil, or_false] at hq hmp ⊢
            rcases hq with rfl | hq
            · right; right; exact hmp
            · right; left; exact hq
    · have he' : p.equals np = false := by simpa using he
      rw [deleteNodeP_ne _ _ _ _ _ _ he']
      split
      · intro q hq
        simp only [KDNode.points, List.mem_cons, List.mem_append] at hq ⊢
        rcases hq with h | h | h
        · exact Or.inl h
        · exact Or.inr (Or.inl (ihl _ q h))
        · exact Or.inr (Or.inr h)
      · intro q hq
        simp only [KDNode.points, List.mem_cons, List.mem_append] at hq ⊢
        rcases hq with h | h | h
        · exact Or.inl h
        · exact Or.inr (Or.inl h)
        · exact Or.inr (Or.inr (ihr _ q h))

/-! ## Tree-level operations on a well-formed tree -/

theorem search_eq (t : KDTree) (hwf : t.WF) (p : Point) (hp : p.getDimensions = t.dimensions) :
    t.search p = .ok (searchP t.dimensions t.root p 0) :=
  searchLoop_eq t.dimensions hwf.1 p hp t.root hwf.2 0

theorem remove_eq (t : KDTree) (hwf : t.WF) (p : Point) (hp : p.getDimensions = t.dimensions) :
    t.remove p =
      .ok (decide (countNodes (deleteNodeP t.dimensions t.root p 0) < countNodes t.root),
        ⟨deleteNodeP t.dimensions t.root p 0, t.dimensions⟩) := by
  unfold KDTree.remove
  rw [if_neg (by simpa using hp)]
  simp only [deleteNode_eq t.dimensions hwf.1 p hp t.root hwf.2 0, bind, Except.bind,
    pure, Except.pure, KDTree.size]

theorem remove_WF (t : KDTree) (hwf : t.WF) (p : Point) :
    (KDTree.mk (deleteNodeP t.dimensions t.root p 0) t.dimensions).WF :=
  ⟨hwf.1, WellDim_of_subset (deleteNodeP_subset _ p _ 0) hwf.2⟩

theorem equals_symm (p q : Point) : p.equals q = q.equals p := by
  unfold Point.equals
  by_cases h : p.coordinates.length = q.coordinates.length
  · rw [if_neg (by simpa using h), if_neg (by simpa using h.symm)]
    rw [← List.zip_swap p.coordinates q.coordinates, List.all_map]
    congr 1
    funext xy
    simp only [Function.comp, Prod.fst_swap, Prod.snd_swap, abs_sub_comm]
  · rw [if_pos h, if_pos (fun h' => h h'.symm)]

theorem deleteNodeP_nodup (dims : Nat) (p : Point) (n : KDNode) (depth : Nat)
    (hnd : n.points.Nodup) (h : searchP dims n p depth = true) :
    ∃ m ∈ n.points, p.equals m = true ∧
      ∀ q ∈ (deleteNodeP dims n p depth).points, q ∈ n.points ∧ q ≠ m := by
  induction n generalizing depth with
  | nil => simp [searchP] at h
  | node np l r ihl ihr =>
    have hsub := deleteNodeP_subset dims p (.node np l r) depth
    simp only [KDNode.points, List.nodup_cons, List.mem_append, not_or,
      List.nodup_append] at hnd
    obtain ⟨⟨hnl, hnr⟩, hl, hr, hdis⟩ := hnd
    by_cases he : p.equals np = true
    · refine ⟨np, by simp [KDNode.points], he, fun q hq => ⟨hsub q hq, ?_⟩⟩
      rintro rfl
      cases l with
      | nil =>
        cases r with
        | nil => simp [deleteNodeP, he, KDNode.points] at hq
        | node rp rl rr =>
          simp only [deleteNodeP, he, if_true] at hq
          exact hnr hq
      | node lp ll lr =>
        cases r with
        | nil =>
          simp only [deleteNodeP, he, if_true] at hq
          exact hnl hq
        | node rp rl rr =>
          simp only [deleteNodeP, he, if_true] at hq
          have hfs := findMinP_subset dims (.node rp rl rr) (depth % dims) ((depth + 1) % dims)
          cases hm : findMinP dims (.node rp rl rr) (depth % dims) ((depth + 1) % dims) with
          | nil =>
            rw [hm] at hq
            simp [KDNode.points] at hq
          | node mp ml mr =>
            rw [hm] at hq hfs
            have hmp := hfs mp (by simp [KDNode.points])
            simp only [KDNode.points, List.mem_cons, List.append_nil] at hq
            rcases hq with rfl | hq
            · exact hnr hmp
            · exact hnl (by simpa [KDNode.points] using hq)
    · have he' : p.equals np = false := by simpa using he
      simp only [searchP, he', Bool.false_eq_true, if_false] at h
      rw [deleteNodeP_ne _ _ _ _ _ _ he'] at hsub ⊢
      by_cases hlt : p.coord (depth % dims) < np.coord (depth % dims)
      · rw [if_pos hlt] at h hsub ⊢
        obtain ⟨m, hm, hem, hall⟩ := ihl _ hl h
        refine ⟨m, by simp [KDNode.points, hm], hem, fun q hq => ⟨hsub q hq, ?_⟩⟩
        simp only [KDNode.points, List.mem_cons, List.mem_append] at hq
        rcases hq with rfl | hq | hq
        · rintro rfl; exact hnl hm
        · exact (hall q hq).2
        · rintro rfl; exact hdis hm hq
      · rw [if_neg hlt] at h hsub ⊢
        obtain ⟨m, hm, hem, hall⟩ := ihr _ hr h
        refine ⟨m, by simp [KDNode.points, hm], hem, fun q hq => ⟨hsub q hq, ?_⟩⟩
        simp only [KDNode.points, List.mem_cons, List.mem_append] at hq
        rcases hq with rfl | hq | hq
        · rintro rfl; exact hnr hm
        · rintro rfl; exact hdis hq hm
        · exact (hall q hq).2

/-! ## Range query -/

theorem inRangeLoop_eq (p : Point) (min max : List ℚ) (fuel i : Nat)
    (h : i + fuel ≤ p.coordinates.length) :
    inRangeLoop p min max fuel i = .ok (inRangeP p min max fuel i) := by
  induction fuel generalizing i with
  | zero => rfl
  | succ n ih =>
    simp only [inRangeLoop, inRangeP, getCoordinate_ok p i (by omega), bind, Except.bind,
      pure, Except.pure]
    split
    · rfl
    · exact ih (i + 1) (by omega)

theorem inRangeP_iff (p : Point) (min max : List ℚ) (fuel i : Nat) :
    inRangeP p min max fuel i = true ↔
      ∀ j, i ≤ j → j < i + fuel → min.getD j 0 ≤ p.coord j ∧ p.coord j ≤ max.getD j 0 := by
  induction fuel generalizing i with
  | zero =>
    simp only [inRangeP, true_iff]
    intro j h1 h2
    omega
  | succ n ih =>
    simp only [inRangeP]
    split
    · rename_i hout
      simp only [Bool.false_eq_true, false_iff, not_forall]
      refine ⟨i, le_refl _, by omega, ?_⟩
      rcases hout with h | h
      · exact fun hc => absurd hc.1 (not_le.2 h)
      · exact fun hc => absurd hc.2 (not_le.2 h)
    · rename_i hin
      push_neg at hin
      rw [ih (i + 1)]
      constructor
      · intro h j h1 h2
        rcases Nat.eq_or_lt_of_le h1 with rfl | hlt
        · exact hin
        · exact h j hlt (by omega)
      · intro h j h1 h2
        exact h j (by omega) (by omega)

theorem inRangeP_eq_inBox (dims : Nat) (min max : List ℚ) (p : Point) :
    inRangeP p min max dims 0 = inBox dims min max p := by
  rw [Bool.eq_iff_iff, inRangeP_iff]
  simp only [inBox, List.all_eq_true, List.mem_range, Bool.and_eq_true, decide_eq_true_eq,
    Nat.zero_le, Nat.zero_add, true_implies]

theorem inBox_coord {dims : Nat} {min max : List ℚ} {p : Point}
    (h : inBox dims min max p = true) {i : Nat} (hi : i < dims) :
    min.getD i 0 ≤ p.coord i ∧ p.coord i ≤ max.getD i 0 := by
  simp only [inBox, List.all_eq_true, List.mem_range, Bool.and_eq_true,
    decide_eq_true_eq] at h
  exact h i hi

theorem rangeSearch_eq (dims : Nat) (hd : 0 < dims) (min max : List ℚ) (n : KDNode)
    (hn : n.WellDim dims) (depth : Nat) (acc : List Point) :
    rangeSearch dims min max n depth acc =
      .ok (acc ++ rangeSearchP dims min max n depth) := by
  induction n generalizing depth acc with
  | nil => simp [rangeSearch, rangeSearchP]
  | node p l r ihl ihr =>
    obtain ⟨h1, h2, h3⟩ := WellDim_node.1 hn
    simp only [rangeSearch, rangeSearchP, inRangeLoop_eq p min max dims 0 (by omega),
      getCoordinate_mod _ _ _ hd h1, bind, Except.bind, pure, Except.pure]
    by_cases hl : min.getD (depth % dims) 0 ≤ p.coord (depth % dims)
    · simp only [hl, if_true, ihl h2]
      by_cases hr : max.getD (depth % dims) 0 ≥ p.coord (depth % dims)
      · simp only [hr, if_true, ihr h3]
        split <;> simp
      · simp only [hr, if_false]
        split <;> simp
    · simp only [hl, if_false]
      by_cases hr : max.getD (depth % dims) 0 ≥ p.coord (depth % dims)
      · simp only [hr, if_true, ihr h3]
        split <;> simp
      · simp only [hr, if_false]
        split <;> simp

theorem rangeSearchP_eq_filter (dims : Nat) (hd : 0 < dims) (min max : List ℚ) (n : KDNode)
    (depth : Nat) (hinv : n.Inv dims depth) :
    rangeSearchP dims min max n depth = n.points.filter (inBox dims min max) := by
  induction n generalizing depth with
  | nil => rfl
  | node p l r ihl ihr =>
    obtain ⟨h1, h2, h3, h4⟩ := hinv
    have hcd : depth % dims < dims := Nat.mod_lt _ hd
    have hleft : (if min.getD (depth % dims) 0 ≤ p.coord (depth % dims) then
        rangeSearchP dims min max l (depth + 1) else []) =
        l.points.filter (inBox dims min max) := by
      split
      · exact ihl _ h3
      · rename_i hlt
        symm
        rw [List.filter_eq_nil_iff]
        intro q hq hbox
        exact hlt (le_trans (inBox_coord hbox hcd).1 (le_of_lt (h1 q hq)))
    have hright : (if max.getD (depth % dims) 0 ≥ p.coord (depth % dims) then
        rangeSearchP dims min max r (depth + 1) else []) =
        r.points.filter (inBox dims min max) := by
      split
      · exact ihr _ h4
      · rename_i hgt
        symm
        rw [List.filter_eq_nil_iff]
        intro q hq hbox
        exact hgt (le_trans (h2 q hq) (inBox_coord hbox hcd).2)
    simp only [rangeSearchP, hleft, hright, KDNode.points, inRangeP_eq_inBox,
      List.filter_cons, List.filter_append]
    split <;> simp

theorem rangeQuery_eq (t : KDTree) (hwf : t.WF) (min max : List ℚ)
    (hmin : min.length = t.dimensions) (hmax : max.length = t.dimensions) :
    t.rangeQuery min max = .ok (rangeSearchP t.dimensions min max t.root 0) := by
  unfold KDTree.rangeQuery
  rw [if_neg (by simp [hmin, hmax]), rangeSearch_eq _ hwf.1 _ _ _ hwf.2]
  simp

/-! ## Distances -/

theorem distanceTo_eq (p : Point) (target : List ℚ)
    (h : target.length = p.coordinates.length) :
    p.distanceTo target = .ok (p.sumSquares target) := by
  unfold Point.distanceTo
  rw [if_neg (by simpa using h)]

/-! ## Nearest neighbour -/

theorem nearestNeighborRec_eq (dims : Nat) (hd : 0 < dims) (target : List ℚ)
    (ht : target.length = dims) (n : KDNode) (hn : n.WellDim dims) (depth : Nat)
    (st : Point × ℚ) :
    nearestNeighborRec dims target n depth st = .ok (nnP dims target n depth st) := by
  induction n generalizing depth st with
  | nil => rfl
  | node p l r ihl ihr =>
    obtain ⟨h1, h2, h3⟩ := WellDim_node.1 hn
    simp only [nearestNeighborRec, nnP, distanceTo_eq p target (ht.trans h1.symm),
      getCoordinate_mod _ _ _ hd h1, bind, Except.bind, pure, Except.pure, ihl h2, ihr h3]
    split_ifs <;> rfl

theorem nearestNeighbor_eq (dims : Nat) (rp : Point) (l r : KDNode)
    (hwf : (KDTree.mk (.node rp l r) dims).WF) (target : List ℚ) (ht : target.length = dims) :
    (KDTree.mk (.node rp l r) dims).nearestNeighbor target =
      .ok (nnP dims target (.node rp l r) 0 (rp, rp.sumSquares target)).1 := by
  have h1 := (WellDim_node.1 hwf.2).1
  simp only [KDTree.nearestNeighbor]
  rw [if_neg (by simpa using ht)]
  simp only [distanceTo_eq rp target (ht.trans h1.symm),
    nearestNeighborRec_eq dims hwf.1 target ht _ hwf.2, bind, Except.bind, pure, Except.pure]

/-! ## The bounded heap of `kNearestNeighbors` -/

theorem heapOffer_eq (k : Nat) (hk : 0 < k) (x : Point × ℚ) (heap : List (Point × ℚ)) :
    heapOffer k x heap = .ok (heapOfferP k x heap) := by
  unfold heapOffer heapOfferP
  split
  · rfl
  · rename_i h
    cases heap with
    | nil => exact absurd hk h
    | cons top rest =>
      simp only
      split <;> rfl

theorem heapAdmits_eq (k : Nat) (hk : 0 < k) (diff : ℚ) (heap : List (Point × ℚ)) :
    heapAdmits k diff heap = .ok (heapAdmitsP k diff heap) := by
  unfold heapAdmits heapAdmitsP
  split
  · rfl
  · rename_i h
    cases heap with
    | nil => exact absurd hk h
    | cons top rest => rfl

theorem kSearch_eq (dims : Nat) (hd : 0 < dims) (target : List ℚ) (ht : target.length = dims)
    (k : Nat) (hk : 0 < k) (n : KDNode) (hn : n.WellDim dims) (depth : Nat)
    (heap : List (Point × ℚ)) :
    kSearch dims target k n depth heap = .ok (kSearchP dims target k n depth heap) := by
  induction n generalizing depth heap with
  | nil => rfl
  | node p l r ihl ihr =>
    obtain ⟨h1, h2, h3⟩ := WellDim_node.1 hn
    simp only [kSearch, kSearchP, distanceTo_eq p target (ht.trans h1.symm),
      getCoordinate_mod _ _ _ hd h1, heapOffer_eq k hk, heapAdmits_eq k hk, bind,
      Except.bind, pure, Except.pure, ihl h2, ihr h3]
    split_ifs <;> rfl

theorem heapPush_perm (x : Point × ℚ) (heap : List (Point × ℚ)) :
    (heapPush x heap).Perm (x :: heap) :=
  List.perm_orderedInsert _ x heap

/-! ## k nearest neighbours -/

theorem kNearestNeighbors_eq (dims : Nat) (rp : Point) (l r : KDNode)
    (hwf : (KDTree.mk (.node rp l r) dims).WF) (target : List ℚ) (ht : target.length = dims)
    (k : Int) (hk : 0 < k) :
    (KDTree.mk (.node rp l r) dims).kNearestNeighbors target k =
      .ok ((kSearchP dims target k.toNat (.node rp l r) 0 []).map Prod.fst).reverse := by
  simp only [KDTree.kNearestNeighbors]
  rw [if_neg (by simpa using ht), if_neg (not_le.2 hk)]
  simp only [kSearch_eq dims hwf.1 target ht k.toNat (by omega) _ hwf.2, bind, Except.bind,
    pure, Except.pure]

/-! ## k nearest neighbours on an arbitrary tree -/

theorem heapOfferP_room (k : Nat) (x : Point × ℚ) (heap : List (Point × ℚ))
    (h : heap.length < k) : (heapOfferP k x heap).Perm (x :: heap) := by
  unfold heapOfferP
  rw [if_pos h]
  exact heapPush_perm x heap

theorem kSearchP_all (dims k : Nat) (target : List ℚ) (n : KDNode) (depth : Nat)
    (heap : List (Point × ℚ)) (h : heap.length + countNodes n ≤ k) :
    (kSearchP dims target k n depth heap).Perm (heap ++ n.points.map (withDist target)) := by
  induction n generalizing depth heap with
  | nil => simp [kSearchP, KDNode.points]
  | node p l r ihl ihr =>
    simp only [countNodes] at h
    have h1 := heapOfferP_room k (p, p.sumSquares target) heap (by omega)
    have key : ∀ (b : Bool) (near far : KDNode) (depth' : Nat)
        (_ : countNodes near + countNodes far = countNodes l + countNodes r)
        (_ : ∀ hp, hp.length + countNodes near ≤ k →
          (kSearchP dims target k near depth' hp).Perm (hp ++ near.points.map (withDist target)))
        (_ : ∀ hp, hp.length + countNodes far ≤ k →
          (kSearchP dims target k far depth' hp).Perm (hp ++ far.points.map (withDist target)))
        (_ : b = false → ¬ (kSearchP dims target k near depth'
          (heapOfferP k (p, p.sumSquares target) heap)).length < k),
        (if b = true then kSearchP dims target k far depth'
            (kSearchP dims target k near depth' (heapOfferP k (p, p.sumSquares target) heap))
          else kSearchP dims target k near depth'
            (heapOfferP k (p, p.sumSquares target) heap)).Perm
          (heap ++ (withDist target p :: (near.points.map (withDist target) ++
            far.points.map (withDist target)))) := by
      intro b near far depth' hcount ihn ihf hb
      have e2 := ihn (heapOfferP k (p, p.sumSquares target) heap)
        (by rw [h1.length_eq, List.length_cons]; omega)
      have l2 : (kSearchP dims target k near depth'
          (heapOfferP k (p, p.sumSquares target) heap)).length =
          heap.length + 1 + countNodes near := by
        rw [e2.length_eq, List.length_append, h1.length_eq, List.length_cons, List.length_map,
          countNodes_eq_length]
      have e12 : (kSearchP dims target k near depth'
          (heapOfferP k (p, p.sumSquares target) heap)).Perm
          (heap ++ (withDist target p :: near.points.map (withDist target))) := by
        refine e2.trans ((List.Perm.append_right _ h1).trans ?_)
        simp only [List.cons_append]
        exact List.perm_middle.symm
      cases b with
      | true =>
        simp only [if_true]
        refine (ihf _ (by rw [l2]; omega)).trans ((List.Perm.append_right _ e12).trans ?_)
        simp
      | false =>
        simp only [Bool.false_eq_true, if_false]
        have hfar : countNodes far = 0 := by
          have := hb rfl
          rw [l2] at this
          omega
        have : far = .nil := by
          cases far with
          | nil => rfl
          | node _ _ _ => simp [countNodes] at hfar
        subst this
        simpa [KDNode.points] using e12
    have hadm : ∀ (diff : ℚ) (hp : List (Point × ℚ)),
        heapAdmitsP k diff hp = false → ¬ hp.length < k := by
      intro diff hp hf hlt
      simp [heapAdmitsP, hlt] at hf
    by_cases hneg : target.getD (depth % dims) 0 - p.coord (depth % dims) < 0
    · simp only [kSearchP, hneg, if_true, KDNode.points, List.map_cons, List.map_append]
      exact key _ l r (depth + 1) rfl (fun hp hh => ihl _ hp hh) (fun hp hh => ihr _ hp hh)
        (hadm _ _)
    · simp only [kSearchP, hneg, if_false, KDNode.points, List.map_cons, List.map_append]
      refine (key _ r l (depth + 1) (Nat.add_comm _ _) (fun hp hh => ihr _ hp hh)
        (fun hp hh => ihl _ hp hh) (hadm _ _)).trans ?_
      exact List.Perm.append_left _ (List.Perm.cons _ List.perm_append_comm)

/-! ## Nearest neighbour on an arbitrary tree -/

theorem nnP_mem (dims : Nat) (target : List ℚ) (n : KDNode) (depth : Nat) (st : Point × ℚ) :
    (nnP dims target n depth st).1 = st.1 ∨ (nnP dims target n depth st).1 ∈ n.points := by
  induction n generalizing depth st with
  | nil => left; rfl
  | node p l r ihl ihr =>
    have h1 : (if p.sumSquares target < st.2 then (p, p.sumSquares target) else st).1 = st.1 ∨
        (if p.sumSquares target < st.2 then (p, p.sumSquares target) else st).1 = p := by
      split
      · right; rfl
      · left; rfl
    have hl := ihl (depth + 1)
    have hr := ihr (depth + 1)
    simp only [nnP, KDNode.points, List.mem_cons, List.mem_append]
    generalize (if p.sumSquares target < st.2 then (p, p.sumSquares target) else st) = st1
      at h1 ⊢
    split_ifs
    · rcases hr (nnP dims target l (depth + 1) st1) with e | e
      · rcases hl st1 with e' | e'
        · rw [e, e']; tauto
        · rw [e]; tauto
      · tauto
    · rcases hl st1 with e' | e'
      · rw [e']; tauto
      · tauto
    · rcases hl (nnP dims target r (depth + 1) st1) with e | e
      · rcases hr st1 with e' | e'
        · rw [e, e']; tauto
        · rw [e]; tauto
      · tauto
    · rcases hr st1 with e' | e'
      · rw [e']; tauto
      · tauto

/-! ## The dimensionality never changes -/

theorem afterInsert_dimensions (t : KDTree) (p : Point) :
    (t.afterInsert p).dimensions = t.dimensions := by
  unfold KDTree.afterInsert
  split
  · rfl
  · split <;> rfl

theorem afterRemove_dimensions (t : KDTree) (p : Point) :
    (t.afterRemove p).dimensions = t.dimensions := by
  unfold KDTree.afterRemove
  split
  · rfl
  · split <;> rfl

theorem afterUpdate_dimensions (t : KDTree) (o n : Point) :
    (t.afterUpdate o n).dimensions = t.dimensions := by
  unfold KDTree.afterUpdate
  split
  · rfl
  · split
    · split <;> rfl
    · split
      · rw [afterInsert_dimensions, afterRemove_dimensions]
      · rw [afterRemove_dimensions]

theorem applyOp_dimensions (t : KDTree) (op : Op) :
    (t.applyOp op).dimensions = t.dimensions := by
  cases op with
  | insert p => exact afterInsert_dimensions t p
  | remove p => exact afterRemove_dimensions t p
  | update o n => exact afterUpdate_dimensions t o n
  | clear => rfl

theorem run_dimensions (ops : List Op) (t : KDTree) :
    (t.run ops).dimensions = t.dimensions := by
  induction ops generalizing t with
  | nil => rfl
  | cons op ops ih =>
    have := ih (t.applyOp op)
    simp only [KDTree.run, List.foldl_cons] at this ⊢
    rw [this, applyOp_dimensions]

/-! ## Size after insert -/

theorem insertNodeP_count (dims : Nat) (p : Point) (n : KDNode) (depth : Nat) :
    countNodes (insertNodeP dims n p depth) = countNodes n + 1 := by
  rw [countNodes_eq_length, countNodes_eq_length, (insertNodeP_points dims p n depth).length_eq,
    List.length_cons]

theorem insertAllP_count (dims : Nat) (ps : List Point) (root : KDNode) :
    countNodes (insertAllP dims root ps) = countNodes root + ps.length := by
  rw [countNodes_eq_length, countNodes_eq_length, (insertAllP_points dims ps root).length_eq,
    List.length_append]

theorem isEmpty_of_count (t : KDTree) (h : 0 < t.size) : t.isEmpty = false := by
  obtain ⟨root, dims⟩ := t
  cases root with
  | nil => simp [KDTree.size, countNodes] at h
  | node p l r => rfl

/-! ## Range query on an arbitrary tree -/

theorem rangeSearchP_sublist (dims : Nat) (min max : List ℚ) (n : KDNode) (depth : Nat) :
    (rangeSearchP dims min max n depth).Sublist (n.points.filter (inBox dims min max)) := by
  induction n generalizing depth with
  | nil => simp [rangeSearchP, KDNode.points]
  | node p l r ihl ihr =>
    have hl : (if min.getD (depth % dims) 0 ≤ p.coord (depth % dims) then
        rangeSearchP dims min max l (depth + 1) else []).Sublist
        (l.points.filter (inBox dims min max)) := by
      split
      · exact ihl _
      · exact List.nil_sublist _
    have hr : (if max.getD (depth % dims) 0 ≥ p.coord (depth % dims) then
        rangeSearchP dims min max r (depth + 1) else []).Sublist
        (r.points.filter (inBox dims min max)) := by
      split
      · exact ihr _
      · exact List.nil_sublist _
    have hp : (if inRangeP p min max dims 0 = true then [p] else []) =
        [p].filter (inBox dims min max) := by
      rw [inRangeP_eq_inBox]
      by_cases hb : inBox dims min max p = true
      · simp [hb]
      · simp [hb]
    have e : p :: (l.points ++ r.points) = [p] ++ (l.points ++ r.points) := rfl
    simp only [rangeSearchP, KDNode.points]
    rw [hp, e, List.filter_append, List.filter_append]
    exact List.Sublist.append (List.Sublist.refl _) (List.Sublist.append hl hr)

theorem inBox_false_of_crossed (dims : Nat) (min max : List ℚ) (i : Nat) (hi : i < dims)
    (h : max.getD i 0 < min.getD i 0) (p : Point) : inBox dims min max p = false := by
  by_contra hc
  have := inBox_coord (by simpa using hc) hi
  linarith [this.1, this.2]

/-! ## One nearest neighbour, both ways -/

theorem heapOfferP_one (x st : Point × ℚ) :
    heapOfferP 1 x [st] = [if x.2 < st.2 then x else st] := by
  simp only [heapOfferP, List.length_singleton, lt_irrefl, if_false, heapPush,
    List.orderedInsert]
  split <;> rfl

theorem kSearchP_one (dims : Nat) (target : List ℚ) (n : KDNode) (depth : Nat)
    (st : Point × ℚ) :
    kSearchP dims target 1 n depth [st] = [nnP dims target n depth st] := by
  induction n generalizing depth st with
  | nil => rfl
  | node p l r ihl ihr =>
    simp only [kSearchP, nnP, heapOfferP_one, ihl, ihr, heapAdmitsP, List.length_singleton,
      lt_irrefl, if_false, decide_eq_true_eq]
    split_ifs <;> rfl

theorem kSearchP_one_root (dims : Nat) (target : List ℚ) (rp : Point) (l r : KDNode)
    (depth : Nat) :
    kSearchP dims target 1 (.node rp l r) depth [] =
      [nnP dims target (.node rp l r) depth (rp, rp.sumSquares target)] := by
  have h0 : heapOfferP 1 (rp, rp.sumSquares target) [] = [(rp, rp.sumSquares target)] := by
    simp [heapOfferP, heapPush, List.orderedInsert]
  simp only [kSearchP, nnP, h0, kSearchP_one, heapAdmitsP, List.length_singleton, lt_irrefl,
    if_false, decide_eq_true_eq]
  split_ifs <;> rfl

/-! ## Update -/

theorem updateValueLoop_absent (dims : Nat) (hd : 0 < dims) (old : Point)
    (ho : old.coordinates.length = dims) (v : String) (n : KDNode) (hn : n.WellDim dims)
    (depth : Nat) (h : searchP dims n old depth = false) :
    updateValueLoop dims n old v depth = .ok n := by
  induction n generalizing depth with
  | nil => rfl
  | node np l r ihl ihr =>
    obtain ⟨h1, h2, h3⟩ := WellDim_node.1 hn
    simp only [searchP] at h
    by_cases he : old.equals np = true
    · simp [he] at h
    · rw [if_neg he] at h
      have he' : old.equals np = false := by simpa using he
      simp only [updateValueLoop, he', Bool.false_eq_true, if_false,
        getCoordinate_mod _ _ _ hd ho, getCoordinate_mod _ _ _ hd h1, bind, Except.bind, pure,
        Except.pure]
      by_cases hlt : old.coord (depth % dims) < np.coord (depth % dims)
      · rw [if_pos hlt] at h ⊢
        rw [ihl h2 _ h]
      · rw [if_neg hlt] at h ⊢
        rw [ihr h3 _ h]

theorem update_absent (t : KDTree) (hwf : t.WF) (old new : Point)
    (ho : old.getDimensions = t.dimensions) (hn : new.getDimensions = t.dimensions)
    (habs : ∀ q ∈ t.root.points, old.equals q = false) :
    t.update old new = .ok t ∧ t.afterUpdate old new = t := by
  have hs := searchP_false_of_none t.dimensions old t.root 0 habs
  have hrem : t.remove old = .ok (false, t) := by
    rw [remove_eq t hwf old ho, deleteNodeP_of_search_false _ old _ 0 hs]
    simp
  have hdel := deleteNode_eq t.dimensions hwf.1 old ho t.root hwf.2 0
  rw [deleteNodeP_of_search_false _ old _ 0 hs] at hdel
  have hloop := updateValueLoop_absent t.dimensions hwf.1 old ho new.value t.root hwf.2 0 hs
  have hcond : ¬ (old.getDimensions ≠ t.dimensions ∨ new.getDimensions ≠ t.dimensions) := by
    simp [ho, hn]
  unfold KDTree.update KDTree.afterUpdate
  rw [if_neg hcond, if_neg hcond]
  by_cases he : old.equals new = true
  · rw [if_pos he, if_pos he, hloop]
    exact ⟨rfl, rfl⟩
  · rw [if_neg he, if_neg he, hrem]
    refine ⟨rfl, ?_⟩
    simp only [KDTree.afterRemove]
    rw [if_neg (by simpa using ho), hdel]

theorem deleteNodeP_built_none (dims : Nat) (ps : List Point)
    (hdist : ps.Pairwise (fun a b => a.equals b = false)) (p : Point) (hp : p ∈ ps) :
    searchP dims (insertAllP dims .nil ps) p 0 = true ∧
    ∀ q ∈ (deleteNodeP dims (insertAllP dims .nil ps) p 0).points, p.equals q = false := by
  have hperm : (insertAllP dims .nil ps).points.Perm ps := by
    simpa [KDNode.points] using insertAllP_points dims ps .nil
  have hnd : ps.Nodup := by
    refine hdist.imp ?_
    intro a b hab hEq
    rw [hEq, equals_refl] at hab
    exact Bool.noConfusion hab
  have hfound := searchP_insertAllP dims ps .nil p hp
  obtain ⟨m, hm, hem, hall⟩ := deleteNodeP_nodup dims p _ 0 (hperm.nodup_iff.2 hnd) hfound
  have hsymm : Symmetric (fun a b : Point => a.equals b = false) := by
    intro a b hab
    show b.equals a = false
    rw [equals_symm]
    exact hab
  have hmp : m = p := by
    by_contra hne
    have := hdist.forall hsymm hp (hperm.mem_iff.1 hm) (fun h => hne h.symm)
    rw [this] at hem
    exact Bool.noConfusion hem
  refine ⟨hfound, fun q hq => ?_⟩
  obtain ⟨hq1, hq2⟩ := hall q hq
  exact hdist.forall hsymm hp (hperm.mem_iff.1 hq1) (fun h => hq2 (h ▸ hmp.symm))

/-! ## The min-finder -/

theorem add_one_mod (depth dims : Nat) : (depth % dims + 1) % dims = (depth + 1) % dims := by
  rw [Nat.add_mod, Nat.mod_mod, ← Nat.add_mod]

theorem takeIfSmallerP_leAll (r : Nat) (c m : KDNode) (hm : m ≠ .nil) (S1 S2 : List Point)
    (h1 : LeAll r m S1) (h2 : LeAll r c S2) (hc : c = .nil → S2 = []) :
    LeAll r (takeIfSmallerP r c m) (S1 ++ S2) := by
  cases c with
  | nil =>
    have : S2 = [] := hc rfl
    subst this
    have e : takeIfSmallerP r .nil m = m := by cases m <;> rfl
    rw [e, List.append_nil]
    exact h1
  | node cp cl cr =>
    cases m with
    | nil => exact absurd rfl hm
    | node mp ml mr =>
      have a1 := h1 mp ml mr rfl
      have a2 := h2 cp cl cr rfl
      simp only [takeIfSmallerP]
      split
      · rename_i hlt
        intro xp xl xr hx q hq
        cases hx
        rcases List.mem_append.1 hq with hq | hq
        · exact le_trans (le_of_lt hlt) (a1 q hq)
        · exact a2 q hq
      · rename_i hge
        intro xp xl xr hx q hq
        cases hx
        rcases List.mem_append.1 hq with hq | hq
        · exact a1 q hq
        · exact le_trans (not_lt.1 hge) (a2 q hq)

theorem findMinP_nil_points (dims : Nat) (n : KDNode) (r cd : Nat)
    (h : findMinP dims n r cd = .nil) : n.points = [] := by
  cases n with
  | nil => rfl
  | node p l rr => exact absurd h (findMinP_ne_nil dims _ r cd (by simp))

theorem findMinP_leAll (dims : Nat) (n : KDNode) (depth : Nat) (hinv : n.Inv dims depth)
    (r : Nat) : LeAll r (findMinP dims n r (depth % dims)) n.points := by
  induction n generalizing depth with
  | nil =>
    intro mp ml mr h
    simp [findMinP] at h
  | node np l rt ihl ihr =>
    obtain ⟨i1, i2, i3, i4⟩ := hinv
    have hl := ihl (depth + 1) i3
    have hr := ihr (depth + 1) i4
    rw [← add_one_mod] at hl hr
    by_cases hdc : r = depth % dims
    · cases l with
      | nil =>
        simp only [findMinP, hdc, if_true]
        intro mp ml mr h q hq
        cases h
        simp only [KDNode.points, List.nil_append, List.mem_cons] at hq
        rcases hq with rfl | hq
        · exact le_refl _
        · exact i2 q hq
      | node lp ll lr =>
        simp only [findMinP, hdc, if_true]
        intro mp ml mr h q hq
        have hmem : mp ∈ (KDNode.node lp ll lr).points := by
          have := findMinP_subset dims (.node lp ll lr) (depth % dims)
            ((depth % dims + 1) % dims) mp
          rw [h] at this
          exact this (by simp [KDNode.points])
        have hlt := i1 mp hmem
        rw [hdc] at hl
        have hmin := hl mp ml mr h
        simp only [KDNode.points, List.mem_cons, List.mem_append] at hq
        rcases hq with rfl | hq | hq
        · exact le_of_lt hlt
        · exact hmin q (by simpa [KDNode.points] using hq)
        · exact le_trans (le_of_lt hlt) (i2 q hq)
    · rw [findMinP_diff _ _ _ _ _ _ hdc]
      have hself : LeAll r (.node np .nil .nil) [np] := by
        intro mp ml mr h q hq
        cases h
        rw [List.mem_singleton] at hq
        rw [hq]
      have s1 := takeIfSmallerP_leAll r (findMinP dims l r ((depth % dims + 1) % dims))
        (.node np .nil .nil) (by simp) [np] l.points hself hl
        (findMinP_nil_points dims l r _)
      have s2 := takeIfSmallerP_leAll r (findMinP dims rt r ((depth % dims + 1) % dims)) _
        (takeIfSmallerP_ne_nil _ _ _ (by simp)) ([np] ++ l.points) rt.points s1 hr
        (findMinP_nil_points dims rt r _)
      simpa [KDNode.points] using s2

/-! ## Balanced trees -/

theorem countNodes_zero (n : KDNode) (h : countNodes n = 0) : n = .nil := by
  cases n with
  | nil => rfl
  | node p l r => simp [countNodes] at h

theorem height_le_log (t : KDNode) (hb : Balanced t) :
    height t ≤ Nat.log 2 (countNodes t) + 1 := by
  induction t with
  | nil => simp [height]
  | node p l r ihl ihr =>
    obtain ⟨h1, h2, h3, h4⟩ := hb
    have hl := ihl h3
    have hr := ihr h4
    have hn : countNodes (.node p l r) = 1 + countNodes l + countNodes r := rfl
    have child : ∀ c : KDNode, countNodes c ≤ countNodes (.node p l r) / 2 →
        height c ≤ Nat.log 2 (countNodes c) + 1 →
        height c ≤ Nat.log 2 (countNodes (.node p l r)) := by
      intro c hc hh
      by_cases h0 : countNodes c = 0
      · rw [countNodes_zero c h0]
        simp [height]
      · have h2n : 2 ≤ countNodes (.node p l r) := by omega
        have hpos := Nat.log_pos (by decide : 1 < 2) h2n
        have hmono := Nat.log_mono_right (b := 2) hc
        rw [Nat.log_div_base] at hmono
        omega
    have cl := child l (by omega) hl
    have cr := child r (by omega) hr
    simp only [height]
    have := max_le cl cr
    omega

theorem almostEven_of_balanced (t : KDNode) (hb : Balanced t) : AlmostEven t := by
  induction t with
  | nil => trivial
  | node p l r ihl ihr =>
    obtain ⟨h1, h2, h3, h4⟩ := hb
    have hn : countNodes (.node p l r) = 1 + countNodes l + countNodes r := rfl
    exact ⟨by omega, by omega, ihl h3, ihr h4⟩

/-! ## Replacing a range of a vector -/

theorem range_decomp (pts : List Point) (left right : Nat) (h : left ≤ right) :
    pts.take left ++ ((pts.drop left).take (right - left) ++ pts.drop right) = pts := by
  have e : pts.drop right = (pts.drop left).drop (right - left) := by
    rw [List.drop_drop]
    congr 1
    omega
  rw [e, List.take_append_drop, List.take_append_drop]

theorem range_length (pts : List Point) (left right : Nat) (h : left ≤ right)
    (hr : right ≤ pts.length) : ((pts.drop left).take (right - left)).length = right - left := by
  rw [List.length_take, List.length_drop]
  omega

theorem splice_length (pts w : List Point) (left right : Nat) (h : left ≤ right)
    (hr : right ≤ pts.length) (hw : w.length = right - left) :
    (pts.take left ++ w ++ pts.drop right).length = pts.length := by
  simp only [List.length_append, List.length_take, List.length_drop, hw]
  omega

theorem splice_take (pts w : List Point) (left right : Nat) (hl : left ≤ pts.length) :
    (pts.take left ++ w ++ pts.drop right).take left = pts.take left := by
  rw [List.append_assoc]
  exact List.take_left' (by rw [List.length_take]; omega)

theorem splice_drop (pts w : List Point) (left right : Nat) (h : left ≤ right)
    (hr : right ≤ pts.length) (hw : w.length = right - left) :
    (pts.take left ++ w ++ pts.drop right).drop right = pts.drop right := by
  refine List.drop_left' ?_
  rw [List.length_append, List.length_take, hw]
  omega

theorem splice_drop_left (pts w : List Point) (left right : Nat) (hl : left ≤ pts.length) :
    (pts.take left ++ w ++ pts.drop right).drop left = w ++ pts.drop right := by
  rw [List.append_assoc]
  exact List.drop_left' (by rw [List.length_take]; omega)

theorem splice_perm (pts w : List Point) (left right : Nat) (h : left ≤ right)
    (hw : w.Perm ((pts.drop left).take (right - left))) :
    (pts.take left ++ w ++ pts.drop right).Perm pts := by
  have e := range_decomp pts left right h
  rw [List.append_assoc]
  refine List.Perm.trans ?_ (List.Perm.of_eq e)
  exact List.Perm.append_left _ (List.Perm.append_right _ hw)

theorem remove_middle_perm (w : List Point) (k : Nat) (hk : k < w.length) :
    (w[k] :: (w.take k ++ w.drop (k + 1))).Perm w := by
  have e : w.take k ++ w[k] :: w.drop (k + 1) = w := by
    rw [← List.drop_eq_getElem_cons hk, List.take_append_drop]
  exact (List.perm_middle.symm).trans (List.Perm.of_eq e)

/-! ## Balanced bulk build -/

theorem coordLess_ok (dims depth : Nat) (hd : 0 < dims) (a b : Point)
    (ha : dims ≤ a.coordinates.length) (hb : dims ≤ b.coordinates.length) :
    ∃ r, coordLess (depth % dims) a b = .ok r := by
  have hm := Nat.mod_lt depth hd
  refine ⟨decide (a.coord (depth % dims) < b.coord (depth % dims)), ?_⟩
  simp only [coordLess, getCoordinate_ok a _ (lt_of_lt_of_le hm ha),
    getCoordinate_ok b _ (lt_of_lt_of_le hm hb), bind, Except.bind, pure, Except.pure]

theorem buildTree_base (nth : NthElement) (dims : Nat) (points : List Point)
    (depth left right : Nat) (h : left ≥ right) :
    buildTree nth dims points depth left right = .ok (.nil, points) := by
  rw [buildTree, dif_pos h]

theorem buildTree_step (nth : NthElement) (dims : Nat) (points : List Point)
    (depth left right : Nat) (h : ¬ left ≥ right) (w : List Point)
    (hw : nth (coordLess (depth % dims)) ((points.drop left).take (right - left))
      (left + (right - left) / 2 - left) = .ok w)
    (pm : Point)
    (hpm : (points.take left ++ w ++ points.drop right)[left + (right - left) / 2]? = some pm)
    (lt : KDNode) (points2 : List Point)
    (h2 : buildTree nth dims (points.take left ++ w ++ points.drop right) (depth + 1) left
      (left + (right - left) / 2) = .ok (lt, points2))
    (rt : KDNode) (points3 : List Point)
    (h3 : buildTree nth dims points2 (depth + 1) (left + (right - left) / 2 + 1) right =
      .ok (rt, points3)) :
    buildTree nth dims points depth left right = .ok (.node pm lt rt, points3) := by
  rw [buildTree, dif_neg h]
  simp only [hw, hpm, h2, h3]

/-- What a call of `buildTree` on the range `[left, right)` returns and does to
the vector. -/
theorem buildTree_spec (nth : NthElement) (hnth : NthElementSpec nth) (dims : Nat)
    (hd : 0 < dims) (n : Nat) :
    ∀ (points : List Point) (depth left right : Nat), right - left = n → left ≤ right →
      right ≤ points.length →
      (∀ p ∈ (points.drop left).take (right - left), dims ≤ p.coordinates.length) →
      ∃ t points', buildTree nth dims points depth left right = .ok (t, points') ∧
        points'.length = points.length ∧ points'.take left = points.take left ∧
        points'.drop right = points.drop right ∧ points'.Perm points ∧
        t.points.Perm ((points.drop left).take (right - left)) ∧ Balanced t := by
  induction n using Nat.strong_induction_on with
  | _ n ih =>
    intro points depth left right hn hlr hr hdim
    by_cases hge : left ≥ right
    · have hzero : right - left = 0 := by omega
      refine ⟨.nil, points, buildTree_base nth dims points depth left right hge, rfl, rfl, rfl,
        List.Perm.refl _, ?_, trivial⟩
      rw [hzero]
      simp [KDNode.points]
    · have hlt : left < right := by omega
      have hmid1 : left ≤ left + (right - left) / 2 := by omega
      have hmid2 : left + (right - left) / 2 < right := by omega
      generalize hmid : left + (right - left) / 2 = mid at hmid1 hmid2
      -- the call of nth_element
      obtain ⟨w, hw, hwperm⟩ := hnth (coordLess (depth % dims))
        ((points.drop left).take (right - left)) (mid - left)
        (fun a ha b hb => coordLess_ok dims depth hd a b (hdim a ha) (hdim b hb))
      have hdimw : ∀ p ∈ w, dims ≤ p.coordinates.length :=
        fun p hp => hdim p (hwperm.mem_iff.1 hp)
      have hwlen : w.length = right - left := by
        rw [hwperm.length_eq, range_length points left right hlr hr]
      have hl : left ≤ points.length := by omega
      -- the vector after nth_element
      have p1len := splice_length points w left right hlr hr hwlen
      have p1take := splice_take points w left right hl
      have p1drop := splice_drop points w left right hlr hr hwlen
      have p1dl := splice_drop_left points w left right hl
      have p1perm := splice_perm points w left right hlr hwperm
      generalize hp1 : points.take left ++ w ++ points.drop right = points1
        at p1len p1take p1drop p1dl p1perm
      have hk : mid - left < w.length := by omega
      have hpm : points1[mid]? = some w[mid - left] := by
        have e1 : points1[mid]? = (points1.drop left)[mid - left]? := by
          rw [List.getElem?_drop]
          congr 1
          omega
        rw [e1, p1dl, List.getElem?_append_left hk, List.getElem?_eq_getElem hk]
      -- the left half
      have hleft : (points1.drop left).take (mid - left) = w.take (mid - left) := by
        rw [p1dl, List.take_append_of_le_length (le_of_lt hk)]
      obtain ⟨lt, points2, e2, l2, t2, d2, q2, s2, b2⟩ :=
        ih (mid - left) (by omega) points1 (depth + 1) left mid rfl hmid1 (by omega)
          (fun p hp => hdimw p (List.mem_of_mem_take (hleft ▸ hp)))
      -- the right half
      have hright : (points2.drop (mid + 1)).take (right - (mid + 1)) =
          w.drop (mid - left + 1) := by
        have e1 : points2.drop (mid + 1) = (points2.drop mid).drop 1 := by
          rw [List.drop_drop]
        have e2' : points1.drop mid = (points1.drop left).drop (mid - left) := by
          rw [List.drop_drop]
          congr 1
          omega
        rw [e1, d2, e2', p1dl, List.drop_drop,
          List.drop_append_of_le_length (by omega : mid - left + 1 ≤ w.length)]
        refine List.take_left' ?_
        rw [List.length_drop]
        omega
      obtain ⟨rt, points3, e3, l3, t3, d3, q3, s3, b3⟩ :=
        ih (right - (mid + 1)) (by omega) points2 (depth + 1) (mid + 1) right rfl (by omega)
          (by omega) (fun p hp => hdimw p (List.mem_of_mem_drop (hright ▸ hp)))
      have hbuild : buildTree nth dims points depth left right =
          .ok (.node w[mid - left] lt rt, points3) := by
        refine buildTree_step nth dims points depth left right hge w ?_ _ ?_ lt points2 ?_ rt
          points3 ?_
        · rw [hmid]; exact hw
        · rw [hmid, hp1]; exact hpm
        · rw [hmid, hp1]; exact e2
        · rw [hmid]; exact e3
      -- the ranges the two halves were built from
      rw [hleft] at s2
      rw [hright] at s3
      have hcl : countNodes lt = mid - left := by
        rw [countNodes_eq_length, s2.length_eq, List.length_take]
        omega
      have hcr : countNodes rt = right - (mid + 1) := by
        rw [countNodes_eq_length, s3.length_eq, List.length_drop]
        omega
      refine ⟨_, points3, hbuild, by rw [l3, l2, p1len], ?_, ?_, (q3.trans q2).trans p1perm, ?_,
        ?_⟩
      · have e : points3.take left = (points3.take (mid + 1)).take left := by
          rw [List.take_take, Nat.min_eq_left (by omega)]
        have e' : points2.take left = (points2.take (mid + 1)).take left := by
          rw [List.take_take, Nat.min_eq_left (by omega)]
        rw [e, t3, ← e', t2, p1take]
      · have e : points2.drop right = (points2.drop mid).drop (right - mid) := by
          rw [List.drop_drop]
          congr 1
          omega
        have e' : points1.drop right = (points1.drop mid).drop (right - mid) := by
          rw [List.drop_drop]
          congr 1
          omega
        rw [d3, e, d2, ← e', p1drop]
      · simp only [KDNode.points]
        refine List.Perm.trans ?_ ((remove_middle_perm w (mid - left) hk).trans hwperm)
        exact List.Perm.cons _ (List.Perm.append s2 s3)
      · refine ⟨?_, ?_, b2, b3⟩
        · simp only [countNodes, hcl, hcr]
          omega
        · simp only [countNodes, hcl, hcr]
          omega

theorem insertBefore_ok (comp : Point → Point → Except KDError Bool) (x : Point)
    (ys : List Point) (h : ∀ y ∈ ys, ∃ r, comp x y = .ok r) :
    ∃ w, insertBefore comp x ys = .ok w ∧ w.Perm (x :: ys) := by
  induction ys with
  | nil => exact ⟨[x], rfl, List.Perm.refl _⟩
  | cons y ys ih =>
    obtain ⟨r, hr⟩ := h y (List.mem_cons_self _ _)
    obtain ⟨w, hw, hp⟩ := ih (fun z hz => h z (List.mem_cons_of_mem _ hz))
    cases r with
    | true =>
      exact ⟨x :: y :: ys, by simp [insertBefore, hr, bind, Except.bind, pure, Except.pure],
        List.Perm.refl _⟩
    | false =>
      refine ⟨y :: w, by simp [insertBefore, hr, hw, bind, Except.bind, pure, Except.pure],
        ?_⟩
      exact (List.Perm.cons y hp).trans (List.Perm.swap x y ys)

theorem nthBySorting_spec : NthElementSpec nthBySorting := by
  intro comp range n
  induction range with
  | nil =>
    intro _
    exact ⟨[], rfl, List.Perm.refl _⟩
  | cons x xs ih =>
    intro h
    obtain ⟨w, hw, hp⟩ := ih (fun a ha b hb =>
      h a (List.mem_cons_of_mem _ ha) b (List.mem_cons_of_mem _ hb))
    obtain ⟨w2, hw2, hp2⟩ := insertBefore_ok comp x w (fun y hy =>
      h x (List.mem_cons_self _ _) y (List.mem_cons_of_mem _ (hp.mem_iff.1 hy)))
    refine ⟨w2, ?_, hp2.trans (List.Perm.cons x hp)⟩
    simp only [nthBySorting, List.foldrM_cons] at hw ⊢
    rw [hw]
    exact hw2

/-! ## Evaluation of the examples -/

theorem exFour_built : (KDTree.mk .nil 2).insertAll exFour = .ok exFourTree := by
  rfl

theorem exThree_built : (KDTree.mk .nil 2).insertAll exThree = .ok exThreeTree := by
  rfl

theorem exFourTree_WF : exFourTree.WF := by
  refine ⟨by decide, ?_⟩
  intro q hq
  simp only [exFourTree, KDNode.points, List.mem_cons, List.mem_append, List.append_nil,
    List.nil_append, List.not_mem_nil, or_false] at hq
  rcases hq with rfl | rfl | rfl | rfl <;> rfl

theorem exThreeTree_WF : exThreeTree.WF := by
  refine ⟨by decide, ?_⟩
  intro q hq
  simp only [exThreeTree, KDNode.points, List.mem_cons, List.mem_append, List.append_nil,
    List.nil_append, List.not_mem_nil, or_false] at hq
  rcases hq with rfl | rfl | rfl <;> rfl

theorem exSix_built : (KDTree.mk .nil 2).insertAll exSix = .ok exSixTree := by
  rfl

/-! ## Claims -/

/-- C1 (defect in `deleteNode`): removing the root (5,5) of the tree built from
(5,5), (3,3), (7,7), (8,8) returns true, yet `size()` drops from 4 to 2: the
whole right subtree is lost, only its minimum is copied into the root. -/
theorem C1_remove_two_children_loses_right_subtree :
    (KDTree.mk .nil 2).insertAll exFour = .ok exFourTree ∧
    exFourTree.size = 4 ∧
    exFourTree.remove ⟨[5, 5], ""⟩ =
      .ok (true, ⟨.node ⟨[7, 7], "c"⟩ (.node ⟨[3, 3], "b"⟩ .nil .nil) .nil, 2⟩) ∧
    (KDTree.mk (.node ⟨[7, 7], "c"⟩ (.node ⟨[3, 3], "b"⟩ .nil .nil) .nil) 2).size = 2 := by
  refine ⟨rfl, rfl, ?_, rfl⟩
  norm_num [KDTree.remove, exFourTree, Point.getDimensions, deleteNode, Point.equals,
    tolerance, findMin, takeIfSmaller, Point.getCoordinate, deleteNodeNull, KDTree.size,
    countNodes, bind, Except.bind, pure, Except.pure]

/-- C5: for every positive dimensionality and every sequence of points of that
dimensionality, construction and all inserts succeed, and afterwards `search`
returns true for every point of the sequence. -/
theorem C5_search_finds_every_inserted_point (d : Int) (hd : 0 < d) (ps : List Point)
    (hps : ∀ p ∈ ps, p.getDimensions = d.toNat) :
    ∃ t0 t, KDTree.create d = .ok t0 ∧ t0.insertAll ps = .ok t ∧
      ∀ p ∈ ps, t.search p = .ok true := by
  refine ⟨⟨.nil, d.toNat⟩, ⟨insertAllP d.toNat .nil ps, d.toNat⟩, create_eq d hd,
    insertAll_eq ps _ (create_WF d hd) hps, ?_⟩
  intro p hp
  have hwf : (KDTree.mk (insertAllP d.toNat .nil ps) d.toNat).WF :=
    ⟨(create_WF d hd).1, insertAllP_WellDim _ ps _ (WellDim_nil _) hps⟩
  rw [search_eq _ hwf p (hps p hp)]
  exact congrArg Except.ok (searchP_insertAllP d.toNat ps .nil p hp)

/-- C6 (defect in `deleteNode`): the 2-d tree built from (5,5), (7,3), (8,1)
satisfies the search-tree invariant; removing the root (5,5), which has only a
right child, splices that child one level up, after which the invariant fails at
the new root and `search` no longer finds the stored point (8,1). -/
theorem C6_remove_one_child_breaks_invariant :
    (KDTree.mk .nil 2).insertAll exThree = .ok exThreeTree ∧
    exThreeTree.root.Inv 2 0 ∧
    exThreeTree.remove ⟨[5, 5], ""⟩ =
      .ok (true, ⟨.node ⟨[7, 3], "b"⟩ (.node ⟨[8, 1], "c"⟩ .nil .nil) .nil, 2⟩) ∧
    ¬ (KDNode.node ⟨[7, 3], "b"⟩ (.node ⟨[8, 1], "c"⟩ .nil .nil) .nil).Inv 2 0 ∧
    (KDTree.mk (.node ⟨[7, 3], "b"⟩ (.node ⟨[8, 1], "c"⟩ .nil .nil) .nil) 2).search
      ⟨[8, 1], "c"⟩ = .ok false := by
  refine ⟨rfl, ?_, ?_, ?_, ?_⟩
  · norm_num [exThreeTree, KDNode.Inv, KDNode.points, Point.coord]
  · norm_num [KDTree.remove, exThreeTree, Point.getDimensions, deleteNode, Point.equals,
      tolerance, KDTree.size, countNodes, bind, Except.bind, pure, Except.pure]
  · norm_num [KDNode.Inv, KDNode.points, Point.coord]
  · norm_num [KDTree.search, searchLoop, Point.equals, tolerance, Point.getCoordinate,
      bind, Except.bind]

/-- C7: on a well-formed tree satisfying the search-tree invariant, `insert` of
a point of the tree's dimensionality succeeds and the resulting tree (same
dimensionality) satisfies the invariant; the freshly constructed empty tree
satisfies it too. -/
theorem C7_insert_preserves_invariant (t : KDTree) (p : Point) (hwf : t.WF)
    (hp : p.getDimensions = t.dimensions) (hinv : t.root.Inv t.dimensions 0) :
    (∃ t', t.insert p = .ok t' ∧ t'.dimensions = t.dimensions ∧
      t'.root.Inv t'.dimensions 0) ∧
    (∀ d : Int, 0 < d → ∃ t0, KDTree.create d = .ok t0 ∧ t0.root.Inv t0.dimensions 0) :=
  ⟨⟨_, insert_eq t hwf p hp, rfl, insertNodeP_Inv _ p _ 0 hinv⟩,
    fun d hd => ⟨_, create_eq d hd, trivial⟩⟩

/-- C8: in a tree built by inserting points no two of which are tolerance-equal,
`remove` of any inserted point returns true and `search` for it returns false
immediately afterwards. -/
theorem C8_remove_then_search_fails (d : Int) (hd : 0 < d) (ps : List Point)
    (hps : ∀ p ∈ ps, p.getDimensions = d.toNat)
    (hdist : ps.Pairwise (fun a b => a.equals b = false)) (p : Point) (hp : p ∈ ps) :
    ∃ t0 t t', KDTree.create d = .ok t0 ∧ t0.insertAll ps = .ok t ∧
      t.remove p = .ok (true, t') ∧ t'.search p = .ok false := by
  have hwf : (KDTree.mk (insertAllP d.toNat .nil ps) d.toNat).WF :=
    ⟨(create_WF d hd).1, insertAllP_WellDim _ ps _ (WellDim_nil _) hps⟩
  have hperm : (insertAllP d.toNat .nil ps).points.Perm ps := by
    simpa [KDNode.points] using insertAllP_points d.toNat ps .nil
  have hnd : ps.Nodup := by
    refine hdist.imp ?_
    intro a b hab hEq
    rw [hEq, equals_refl] at hab
    exact Bool.noConfusion hab
  have hfound := searchP_insertAllP d.toNat ps .nil p hp
  obtain ⟨m, hm, hem, hall⟩ :=
    deleteNodeP_nodup d.toNat p _ 0 (hperm.nodup_iff.2 hnd) hfound
  have hmp : m = p := by
    by_contra hne
    have := hdist.forall (fun a b hab => by rw [equals_symm]; exact hab) hp
      (hperm.mem_iff.1 hm) (fun h => hne h.symm)
    rw [this] at hem
    exact Bool.noConfusion hem
  refine ⟨⟨.nil, d.toNat⟩, ⟨insertAllP d.toNat .nil ps, d.toNat⟩,
    ⟨deleteNodeP d.toNat (insertAllP d.toNat .nil ps) p 0, d.toNat⟩, create_eq d hd,
    insertAll_eq ps _ (create_WF d hd) hps, ?_, ?_⟩
  · rw [remove_eq _ hwf p (hps p hp)]
    simp only [decide_eq_true (deleteNodeP_count_lt d.toNat p _ 0 hfound)]
  · rw [search_eq _ (remove_WF _ hwf p) p (hps p hp)]
    refine congrArg Except.ok (searchP_false_of_none _ p _ 0 ?_)
    intro q hq
    obtain ⟨hq1, hq2⟩ := hall q hq
    exact hdist.forall (fun a b hab => by rw [equals_symm]; exact hab) hp
      (hperm.mem_iff.1 hq1) (fun h => hq2 (h ▸ hmp.symm))

/-- C9: on a well-formed tree, `remove` of a point of the tree's dimensionality
that is tolerance-equal to no stored point returns false and leaves the tree as
it was. -/
theorem C9_remove_absent_is_noop (t : KDTree) (p : Point) (hwf : t.WF)
    (hp : p.getDimensions = t.dimensions)
    (habs : ∀ q ∈ t.root.points, p.equals q = false) :
    t.remove p = .ok (false, t) := by
  rw [remove_eq t hwf p hp,
    deleteNodeP_of_search_false _ p _ 0 (searchP_false_of_none _ p _ 0 habs)]
  simp

/-- C10: on a well-formed tree and a point of the tree's dimensionality, both
`remove` and `search` return, and the flag returned by `remove` is the value
`search` returned on the tree before the call. -/
theorem C10_remove_flag_is_search (t : KDTree) (p : Point) (hwf : t.WF)
    (hp : p.getDimensions = t.dimensions) :
    ∃ b t', t.remove p = .ok (b, t') ∧ t.search p = .ok b := by
  refine ⟨searchP t.dimensions t.root p 0,
    ⟨deleteNodeP t.dimensions t.root p 0, t.dimensions⟩, ?_, search_eq t hwf p hp⟩
  rw [remove_eq t hwf p hp]
  cases h : searchP t.dimensions t.root p 0 with
  | true => simp only [decide_eq_true (deleteNodeP_count_lt _ p _ 0 h)]
  | false => rw [deleteNodeP_of_search_false _ p _ 0 h]; simp

/-- C2: on a tree built from an empty tree by inserts only, `rangeQuery` with
bounds of the tree's dimensionality returns, up to order, exactly the inserted
points that pass the brute-force box test (with multiplicity). -/
theorem C2_rangeQuery_is_brute_force (d : Int) (hd : 0 < d) (ps : List Point)
    (hps : ∀ p ∈ ps, p.getDimensions = d.toNat) (min max : List ℚ)
    (hmin : min.length = d.toNat) (hmax : max.length = d.toNat) :
    ∃ t0 t res, KDTree.create d = .ok t0 ∧ t0.insertAll ps = .ok t ∧
      t.rangeQuery min max = .ok res ∧
      res.Perm (ps.filter (inBox d.toNat min max)) := by
  have hwf : (KDTree.mk (insertAllP d.toNat .nil ps) d.toNat).WF :=
    ⟨(create_WF d hd).1, insertAllP_WellDim _ ps _ (WellDim_nil _) hps⟩
  have hperm : (insertAllP d.toNat .nil ps).points.Perm ps := by
    simpa [KDNode.points] using insertAllP_points d.toNat ps .nil
  refine ⟨⟨.nil, d.toNat⟩, ⟨insertAllP d.toNat .nil ps, d.toNat⟩, _, create_eq d hd,
    insertAll_eq ps _ (create_WF d hd) hps, rangeQuery_eq _ hwf min max hmin hmax, ?_⟩
  rw [rangeSearchP_eq_filter d.toNat hwf.1 min max _ 0
    (insertAllP_Inv d.toNat ps .nil trivial)]
  exact hperm.filter _

/-! ## Instances of the conditional theorems -/

theorem exFour_dims : ∀ p ∈ exFour, p.getDimensions = (2 : Int).toNat := by
  intro p hp
  simp only [exFour, List.mem_cons, List.mem_singleton, List.not_mem_nil, or_false] at hp
  rcases hp with rfl | rfl | rfl | rfl <;> rfl

theorem exFour_distinct : exFour.Pairwise (fun a b => a.equals b = false) := by
  simp only [exFour, List.pairwise_cons, List.mem_cons, List.mem_singleton,
    List.not_mem_nil, forall_eq_or_imp, forall_eq, or_false, Point.equals, List.length_cons,
    List.zip_cons_cons, List.zip_nil_right, List.all_cons, List.all_nil, tolerance,
    List.Pairwise.nil]
  norm_num [abs_of_nonneg, abs_of_neg]

theorem exFourTree_absent :
    ∀ q ∈ exFourTree.root.points, Point.equals ⟨[1, 1], ""⟩ q = false := by
  simp only [exFourTree, KDNode.points, List.mem_cons, List.mem_append, List.not_mem_nil,
    forall_eq_or_imp, forall_eq, or_false, false_or, Point.equals, List.length_cons,
    List.zip_cons_cons, List.zip_nil_right, List.all_cons, List.all_nil, tolerance,
    List.cons_append, List.nil_append]
  norm_num [abs_of_nonneg, abs_of_neg]

theorem C2_witness :
    ∃ t0 t res, KDTree.create 2 = .ok t0 ∧ t0.insertAll exFour = .ok t ∧
      t.rangeQuery [4, 4] [7, 9] = .ok res ∧
      res.Perm (exFour.filter (inBox (2 : Int).toNat [4, 4] [7, 9])) :=
  C2_rangeQuery_is_brute_force 2 (by decide) exFour exFour_dims [4, 4] [7, 9] rfl rfl

theorem C5_witness :
    ∃ t0 t, KDTree.create 2 = .ok t0 ∧ t0.insertAll exFour = .ok t ∧
      ∀ p ∈ exFour, t.search p = .ok true :=
  C5_search_finds_every_inserted_point 2 (by decide) exFour exFour_dims

theorem C7_witness :
    (∃ t', exThreeTree.insert ⟨[6, 2], "z"⟩ = .ok t' ∧
      t'.dimensions = exThreeTree.dimensions ∧ t'.root.Inv t'.dimensions 0) ∧
    (∀ d : Int, 0 < d → ∃ t0, KDTree.create d = .ok t0 ∧ t0.root.Inv t0.dimensions 0) :=
  C7_insert_preserves_invariant exThreeTree ⟨[6, 2], "z"⟩ exThreeTree_WF rfl
    (by norm_num [exThreeTree, KDNode.Inv, KDNode.points, Point.coord])

theorem C8_witness :
    ∃ t0 t t', KDTree.create 2 = .ok t0 ∧ t0.insertAll exFour = .ok t ∧
      t.remove ⟨[5, 5], "a"⟩ = .ok (true, t') ∧ t'.search ⟨[5, 5], "a"⟩ = .ok false :=
  C8_remove_then_search_fails 2 (by decide) exFour exFour_dims exFour_distinct
    ⟨[5, 5], "a"⟩ (by simp [exFour])

theorem C9_witness :
    exFourTree.remove ⟨[1, 1], ""⟩ = .ok (false, exFourTree) :=
  C9_remove_absent_is_noop exFourTree ⟨[1, 1], ""⟩ exFourTree_WF rfl exFourTree_absent

theorem C10_witness :
    ∃ b t', exFourTree.remove ⟨[7, 7], ""⟩ = .ok (b, t') ∧
      exFourTree.search ⟨[7, 7], ""⟩ = .ok b :=
  C10_remove_flag_is_search exFourTree ⟨[7, 7], ""⟩ exFourTree_WF rfl

/-! ## Claims on arbitrary trees, errors and the concrete scenario -/

/-- C12: on every well-formed tree with `n` stored points, for a target of the
tree's dimensionality and `k > 0` with `k >= n`, `kNearestNeighbors` returns
exactly `n` points, a permutation of the stored points. -/
theorem C12_kNearestNeighbors_returns_all (t : KDTree) (hwf : t.WF) (target : List ℚ)
    (ht : target.length = t.dimensions) (k : Int) (hk : 0 < k)
    (hkn : (t.size : Int) ≤ k) :
    ∃ res, t.kNearestNeighbors target k = .ok res ∧ res.length = t.size ∧
      res.Perm t.root.points := by
  obtain ⟨root, dims⟩ := t
  simp only [KDTree.size] at ht hkn ⊢
  cases root with
  | nil =>
    refine ⟨[], ?_, rfl, List.Perm.refl _⟩
    simp only [KDTree.kNearestNeighbors]
    rw [if_neg (by simpa using ht), if_neg (not_le.2 hk)]
  | node rp l r =>
    have hall := kSearchP_all dims k.toNat target (.node rp l r) 0 []
      (by simp only [List.length_nil]; omega)
    have hperm : ((kSearchP dims target k.toNat (.node rp l r) 0 []).map Prod.fst).reverse.Perm
        (KDNode.node rp l r).points := by
      refine (List.reverse_perm _).trans ((hall.map Prod.fst).trans ?_)
      simp [withDist, Function.comp_def]
    refine ⟨_, kNearestNeighbors_eq dims rp l r hwf target ht k hk, ?_, hperm⟩
    rw [hperm.length_eq, countNodes_eq_length]

/-- C13 (as stated, refuted): in the scenario tree no result of
`rangeQuery([3,2],[8,6])` has exactly the members B, D, F. -/
theorem C13_counterexample :
    ¬ ∃ res, exSixTree.rangeQuery [3, 2] [8, 6] = .ok res ∧
      ∀ q, q ∈ res ↔ q ∈ ([⟨[5, 4], "B"⟩, ⟨[4, 7], "D"⟩, ⟨[7, 2], "F"⟩] : List Point) := by
  rintro ⟨res, hres, hset⟩
  have heval : exSixTree.rangeQuery [3, 2] [8, 6] = .ok [⟨[5, 4], "B"⟩, ⟨[7, 2], "F"⟩] := by
    norm_num [KDTree.rangeQuery, exSixTree, rangeSearch, inRangeLoop, Point.getCoordinate,
      bind, Except.bind, pure, Except.pure]
  rw [heval] at hres
  cases hres
  have := (hset ⟨[4, 7], "D"⟩).2 (by simp)
  norm_num at this

/-- C13 (amended): inserting A..F into an empty 2-d tree gives the scenario
tree, and `rangeQuery([3,2],[8,6])` on it returns, as a set, exactly
(5,4)"B" and (7,2)"F"; (4,7)"D" lies outside the box. -/
theorem C13_rangeQuery_scenario :
    (KDTree.mk .nil 2).insertAll exSix = .ok exSixTree ∧
    (∃ res, exSixTree.rangeQuery [3, 2] [8, 6] = .ok res ∧
      ∀ q, q ∈ res ↔ q ∈ ([⟨[5, 4], "B"⟩, ⟨[7, 2], "F"⟩] : List Point)) ∧
    inBox 2 [3, 2] [8, 6] ⟨[4, 7], "D"⟩ = false := by
  refine ⟨rfl, ⟨[⟨[5, 4], "B"⟩, ⟨[7, 2], "F"⟩], ?_, fun q => Iff.rfl⟩, ?_⟩
  · norm_num [KDTree.rangeQuery, exSixTree, rangeSearch, inRangeLoop, Point.getCoordinate,
      bind, Except.bind, pure, Except.pure]
  · norm_num [inBox, List.range, List.range.loop, Point.coord]

/-- C14 (as stated, refuted): in the scenario tree `kNearestNeighbors([6,5],3)`
does not return B followed by F and D in either order. -/
theorem C14_counterexample :
    ¬ ∃ res, exSixTree.kNearestNeighbors [6, 5] 3 = .ok res ∧
      (res = [⟨[5, 4], "B"⟩, ⟨[7, 2], "F"⟩, ⟨[4, 7], "D"⟩] ∨
        res = [⟨[5, 4], "B"⟩, ⟨[4, 7], "D"⟩, ⟨[7, 2], "F"⟩]) := by
  rintro ⟨res, hres, hor⟩
  have heval : exSixTree.kNearestNeighbors [6, 5] 3 =
      .ok [⟨[5, 4], "B"⟩, ⟨[4, 7], "D"⟩, ⟨[9, 6], "C"⟩] := by
    norm_num [KDTree.kNearestNeighbors, exSixTree, kSearch, heapOffer, heapAdmits, heapPush,
      Point.distanceTo, Point.sumSquares, Point.getCoordinate, List.orderedInsert,
      bind, Except.bind, pure, Except.pure]
  rw [heval] at hres
  cases hres
  rcases hor with h | h <;> norm_num at h

/-- C14 (amended): in the scenario tree `kNearestNeighbors([6,5],3)` returns
(5,4)"B", then (4,7)"D", then (9,6)"C", each strictly farther from [6,5] than the
one before; A and E are strictly farther than all three, and F is exactly as far
as C. -/
theorem C14_kNearestNeighbors_scenario :
    (KDTree.mk .nil 2).insertAll exSix = .ok exSixTree ∧
    exSixTree.kNearestNeighbors [6, 5] 3 =
      .ok [⟨[5, 4], "B"⟩, ⟨[4, 7], "D"⟩, ⟨[9, 6], "C"⟩] ∧
    Point.sumSquares ⟨[5, 4], "B"⟩ [6, 5] < Point.sumSquares ⟨[4, 7], "D"⟩ [6, 5] ∧
    Point.sumSquares ⟨[4, 7], "D"⟩ [6, 5] < Point.sumSquares ⟨[9, 6], "C"⟩ [6, 5] ∧
    Point.sumSquares ⟨[9, 6], "C"⟩ [6, 5] < Point.sumSquares ⟨[2, 3], "A"⟩ [6, 5] ∧
    Point.sumSquares ⟨[9, 6], "C"⟩ [6, 5] < Point.sumSquares ⟨[8, 1], "E"⟩ [6, 5] ∧
    Point.sumSquares ⟨[9, 6], "C"⟩ [6, 5] = Point.sumSquares ⟨[7, 2], "F"⟩ [6, 5] := by
  refine ⟨rfl, ?_, ?_, ?_, ?_, ?_, ?_⟩
  · norm_num [KDTree.kNearestNeighbors, exSixTree, kSearch, heapOffer, heapAdmits, heapPush,
      Point.distanceTo, Point.sumSquares, Point.getCoordinate, List.orderedInsert,
      bind, Except.bind, pure, Except.pure]
  all_goals norm_num [Point.sumSquares]

/-- C15 (defect in `search`): `search` never checks the dimensionality of its
argument.  On the 2-d tree holding (5,5) and (7,7), a point with the single
coordinate 1 is reported as not found, a point with the single coordinate 7
raises `std::out_of_range` from `getCoordinate`, and a point with three
coordinates is reported as not found; none raises `std::invalid_argument`. -/
theorem C15_search_ignores_dimension_mismatch :
    (KDTree.mk .nil 2).insertAll [⟨[5, 5], "a"⟩, ⟨[7, 7], "c"⟩] = .ok exTwoTree ∧
    exTwoTree.WF ∧
    Point.getDimensions ⟨[1], ""⟩ ≠ exTwoTree.dimensions ∧
    exTwoTree.search ⟨[1], ""⟩ = .ok false ∧
    exTwoTree.search ⟨[7], ""⟩ = .error .outOfRange ∧
    Point.getDimensions ⟨[9, 9, 9], ""⟩ ≠ exTwoTree.dimensions ∧
    exTwoTree.search ⟨[9, 9, 9], ""⟩ = .ok false := by
  refine ⟨rfl, ⟨by decide, ?_⟩, by decide, ?_, ?_, by decide, ?_⟩
  · intro q hq
    simp only [exTwoTree, KDNode.points, List.mem_cons, List.mem_append, List.append_nil,
      List.nil_append, List.not_mem_nil, or_false] at hq
    rcases hq with rfl | rfl <;> rfl
  · norm_num [KDTree.search, exTwoTree, searchLoop, Point.equals, Point.getCoordinate,
      bind, Except.bind]
  · norm_num [KDTree.search, exTwoTree, searchLoop, Point.equals, Point.getCoordinate,
      bind, Except.bind]
  · norm_num [KDTree.search, exTwoTree, searchLoop, Point.equals, Point.getCoordinate,
      bind, Except.bind]

/-- C16 (as stated, refuted): on the 2-d example tree, `remove` of a point with
one coordinate does not fail; it returns false. -/
theorem C16_counterexample :
    Point.getDimensions ⟨[1], ""⟩ ≠ exFourTree.dimensions ∧
    exFourTree.remove ⟨[1], ""⟩ = .ok (false, exFourTree) ∧
    exFourTree.remove ⟨[1], ""⟩ ≠ .error .invalidArgument := by
  refine ⟨by decide, rfl, ?_⟩
  intro h
  have h' : exFourTree.remove ⟨[1], ""⟩ = .ok (false, exFourTree) := rfl
  rw [h'] at h
  cases h

/-- C16 (amended): for every tree and every point whose number of coordinates
differs from the tree's dimensions, `remove` raises no error: it returns false
and leaves the tree as it was. -/
theorem C16_remove_mismatch_returns_false (t : KDTree) (p : Point)
    (h : p.getDimensions ≠ t.dimensions) :
    t.remove p = .ok (false, t) ∧ t.afterRemove p = t := by
  unfold KDTree.remove KDTree.afterRemove
  rw [if_pos h, if_pos h]
  exact ⟨rfl, rfl⟩

/-- C17: on every tree, `insert`, `rangeQuery`, `nearestNeighbor`,
`kNearestNeighbors` (for every `k`) and `update` raise `std::invalid_argument`
as soon as one of their coordinate-bearing arguments has a length other than the
tree's dimensions; the two mutating ones, `insert` and `update`, then leave the
object as it was (the three queries are `const`). -/
theorem C17_dimension_mismatch_is_invalid_argument (t : KDTree) (p old new : Point)
    (min max target : List ℚ) (k : Int) :
    (p.getDimensions ≠ t.dimensions →
      t.insert p = .error .invalidArgument ∧ t.afterInsert p = t) ∧
    (min.length ≠ t.dimensions ∨ max.length ≠ t.dimensions →
      t.rangeQuery min max = .error .invalidArgument) ∧
    (target.length ≠ t.dimensions →
      t.nearestNeighbor target = .error .invalidArgument ∧
      t.kNearestNeighbors target k = .error .invalidArgument) ∧
    (old.getDimensions ≠ t.dimensions ∨ new.getDimensions ≠ t.dimensions →
      t.update old new = .error .invalidArgument ∧ t.afterUpdate old new = t) := by
  refine ⟨fun h => ?_, fun h => ?_, fun h => ?_, fun h => ?_⟩
  · unfold KDTree.insert KDTree.afterInsert
    rw [if_pos h, if_pos h]
    exact ⟨rfl, rfl⟩
  · unfold KDTree.rangeQuery
    rw [if_pos h]
  · unfold KDTree.nearestNeighbor KDTree.kNearestNeighbors
    rw [if_pos h, if_pos h]
    exact ⟨rfl, rfl⟩
  · unfold KDTree.update KDTree.afterUpdate
    rw [if_pos h, if_pos h]
    exact ⟨rfl, rfl⟩

/-- C18: on every well-formed tree and target of the tree's dimensionality,
`nearestNeighbor` raises the empty-tree error exactly when the tree is empty,
and on a non-empty tree it returns a point stored in the tree. -/
theorem C18_nearestNeighbor_empty_or_stored (t : KDTree) (hwf : t.WF) (target : List ℚ)
    (ht : target.length = t.dimensions) :
    (t.nearestNeighbor target = .error .runtimeError ↔ t.isEmpty = true) ∧
    (t.isEmpty = false → ∃ best, t.nearestNeighbor target = .ok best ∧
      best ∈ t.root.points) := by
  obtain ⟨root, dims⟩ := t
  simp only at ht
  cases root with
  | nil =>
    have e : (KDTree.mk .nil dims).nearestNeighbor target = .error .runtimeError := by
      simp only [KDTree.nearestNeighbor]
      rw [if_neg (by simpa using ht)]
    refine ⟨⟨fun _ => rfl, fun _ => e⟩, fun h => ?_⟩
    simp [KDTree.isEmpty] at h
  | node rp l r =>
    have e := nearestNeighbor_eq dims rp l r hwf target ht
    refine ⟨⟨fun h => ?_, fun h => ?_⟩, fun _ => ⟨_, e, ?_⟩⟩
    · rw [e] at h
      cases h
    · simp [KDTree.isEmpty] at h
    · rcases nnP_mem dims target (.node rp l r) 0 (rp, rp.sumSquares target) with h | h
      · rw [h]
        simp [KDNode.points]
      · exact h

/-- C19: for a target of the tree's dimensionality, `kNearestNeighbors` returns
the empty sequence, without error, whenever `k <= 0` or the tree is empty. -/
theorem C19_kNearestNeighbors_empty_result (t : KDTree) (target : List ℚ)
    (ht : target.length = t.dimensions) (k : Int) (h : k ≤ 0 ∨ t.isEmpty = true) :
    t.kNearestNeighbors target k = .ok [] := by
  obtain ⟨root, dims⟩ := t
  simp only at ht
  simp only [KDTree.kNearestNeighbors]
  rw [if_neg (by simpa using ht)]
  by_cases hk : k ≤ 0
  · rw [if_pos hk]
  · rw [if_neg hk]
    rcases h with h | h
    · exact absurd h hk
    · cases root with
      | nil => rfl
      | node rp l r => simp [KDTree.isEmpty] at h

/-- C20: constructing a tree with `d` dimensions raises `std::invalid_argument`
exactly when `d <= 0`; for `d > 0` it yields an empty tree (`isEmpty()` true,
`size()` 0) whose `getDimensions()` is `d`, and `getDimensions()` is still `d`
after any sequence of `insert`, `remove`, `update` and `clear` calls, whether
they return or throw. -/
theorem C20_constructor_and_dimensions (d : Int) :
    (KDTree.create d = .error .invalidArgument ↔ d ≤ 0) ∧
    (0 < d → ∃ t, KDTree.create d = .ok t ∧ t.isEmpty = true ∧ t.size = 0 ∧
      t.getDimensions = d ∧ ∀ ops, (t.run ops).getDimensions = d) := by
  refine ⟨⟨fun h => ?_, fun h => ?_⟩, fun hd => ?_⟩
  · by_contra hc
    rw [create_eq d (not_le.1 hc)] at h
    cases h
  · unfold KDTree.create
    rw [if_pos h]
  · have hd' : ((d.toNat : Nat) : Int) = d := Int.toNat_of_nonneg (le_of_lt hd)
    refine ⟨⟨.nil, d.toNat⟩, create_eq d hd, rfl, rfl, hd', fun ops => ?_⟩
    unfold KDTree.getDimensions
    rw [run_dimensions]
    exact hd'

/-! ## Instances of the conditional theorems, continued -/

theorem exSixTree_WF : exSixTree.WF := by
  refine ⟨by decide, ?_⟩
  intro q hq
  simp only [exSixTree, KDNode.points, List.mem_cons, List.mem_append, List.append_nil,
    List.nil_append, List.not_mem_nil, or_false] at hq
  rcases hq with rfl | rfl | (rfl | rfl) | rfl | rfl <;> rfl

theorem C12_witness :
    ∃ res, exFourTree.kNearestNeighbors [6, 6] 4 = .ok res ∧ res.length = exFourTree.size ∧
      res.Perm exFourTree.root.points :=
  C12_kNearestNeighbors_returns_all exFourTree exFourTree_WF [6, 6] rfl 4 (by decide)
    (by decide)

theorem C16_witness :
    (KDTree.remove exFourTree ⟨[1, 2, 3], ""⟩ = .ok (false, exFourTree)) ∧
      KDTree.afterRemove exFourTree ⟨[1, 2, 3], ""⟩ = exFourTree :=
  C16_remove_mismatch_returns_false exFourTree ⟨[1, 2, 3], ""⟩ (by decide)

theorem C17_witness :
    (KDTree.insert exFourTree ⟨[1], ""⟩ = .error .invalidArgument ∧
      KDTree.afterInsert exFourTree ⟨[1], ""⟩ = exFourTree) ∧
    exFourTree.rangeQuery [1] [2, 3] = .error .invalidArgument ∧
    (exFourTree.nearestNeighbor [1, 2, 3] = .error .invalidArgument ∧
      exFourTree.kNearestNeighbors [1, 2, 3] 0 = .error .invalidArgument) ∧
    (KDTree.update exFourTree ⟨[5, 5], ""⟩ ⟨[1], ""⟩ = .error .invalidArgument ∧
      KDTree.afterUpdate exFourTree ⟨[5, 5], ""⟩ ⟨[1], ""⟩ = exFourTree) :=
  have h := C17_dimension_mismatch_is_invalid_argument exFourTree ⟨[1], ""⟩ ⟨[5, 5], ""⟩
    ⟨[1], ""⟩ [1] [2, 3] [1, 2, 3] 0
  ⟨h.1 (by decide), h.2.1 (Or.inl (by decide)), h.2.2.1 (by decide),
    h.2.2.2 (Or.inr (by decide))⟩

theorem C18_witness :
    (exSixTree.nearestNeighbor [6, 5] = .error .runtimeError ↔ exSixTree.isEmpty = true) ∧
    (exSixTree.isEmpty = false → ∃ best, exSixTree.nearestNeighbor [6, 5] = .ok best ∧
      best ∈ exSixTree.root.points) :=
  C18_nearestNeighbor_empty_or_stored exSixTree exSixTree_WF [6, 5] rfl

theorem C19_witness : exSixTree.kNearestNeighbors [6, 5] 0 = .ok [] :=
  C19_kNearestNeighbors_empty_result exSixTree [6, 5] rfl 0 (Or.inl (by decide))

theorem C20_witness :
    ∃ t, KDTree.create 2 = .ok t ∧ t.isEmpty = true ∧ t.size = 0 ∧
      t.getDimensions = 2 ∧ ∀ ops, (t.run ops).getDimensions = 2 :=
  (C20_constructor_and_dimensions 2).2 (by decide)

/-! ## Claims on clear, insert, equality, search and range soundness -/

/-- C21: after `clear()` the tree is empty with size 0, a second `clear()`
changes nothing, and the cleared object is the object a fresh construction with
the same dimensions produces, so every later sequence of mutating calls leaves
both in the same state and every query, `remove` and `insert` answers the same
on both. -/
theorem C21_clear_is_fresh (t : KDTree) (hd : 0 < t.dimensions) :
    t.clear.isEmpty = true ∧ t.clear.size = 0 ∧ t.clear.clear = t.clear ∧
    ∃ fresh, KDTree.create t.getDimensions = .ok fresh ∧ fresh = t.clear ∧
      ∀ ops, fresh.run ops = t.clear.run ops ∧
        (fresh.run ops).size = (t.clear.run ops).size ∧
        (∀ p, (fresh.run ops).search p = (t.clear.run ops).search p) ∧
        (∀ p, (fresh.run ops).insert p = (t.clear.run ops).insert p) ∧
        (∀ p, (fresh.run ops).remove p = (t.clear.run ops).remove p) ∧
        (∀ min max, (fresh.run ops).rangeQuery min max =
          (t.clear.run ops).rangeQuery min max) ∧
        (∀ target, (fresh.run ops).nearestNeighbor target =
          (t.clear.run ops).nearestNeighbor target) ∧
        (∀ target k, (fresh.run ops).kNearestNeighbors target k =
          (t.clear.run ops).kNearestNeighbors target k) := by
  refine ⟨rfl, rfl, rfl, t.clear, ?_, rfl, fun ops => ⟨rfl, rfl, fun _ => rfl, fun _ => rfl,
    fun _ => rfl, fun _ _ => rfl, fun _ => rfl, fun _ _ => rfl⟩⟩
  have hpos : (0 : Int) < t.getDimensions := by
    unfold KDTree.getDimensions
    exact_mod_cast hd
  rw [create_eq _ hpos]
  simp [KDTree.getDimensions, KDTree.clear]

/-- C22: on a well-formed tree, `insert` of a point of the tree's dimensionality
succeeds, raises `size()` by exactly 1 and leaves `isEmpty()` false; hence `n`
inserts into an empty tree give size `n`, and the six points A..F give size 6. -/
theorem C22_insert_adds_one (t : KDTree) (p : Point) (hwf : t.WF)
    (hp : p.getDimensions = t.dimensions) :
    (∃ t', t.insert p = .ok t' ∧ t'.size = t.size + 1 ∧ t'.isEmpty = false) ∧
    (∀ (d : Int) (ps : List Point), 0 < d → (∀ q ∈ ps, q.getDimensions = d.toNat) →
      ∃ t0 tn, KDTree.create d = .ok t0 ∧ t0.insertAll ps = .ok tn ∧ tn.size = ps.length) ∧
    (∃ t6, (KDTree.mk .nil 2).insertAll exSix = .ok t6 ∧ t6.size = 6) := by
  refine ⟨⟨_, insert_eq t hwf p hp, insertNodeP_count _ p _ 0, ?_⟩, ?_, ⟨exSixTree, rfl, rfl⟩⟩
  · refine isEmpty_of_count _ ?_
    simp only [KDTree.size, insertNodeP_count]
    omega
  · intro d ps hd hps
    refine ⟨_, _, create_eq d hd, insertAll_eq ps _ (create_WF d hd) hps, ?_⟩
    simp only [KDTree.size, insertAllP_count, countNodes]
    omega

/-- C25: on a well-formed tree and a point of the tree's dimensionality, `search`
returns; if it returns true some stored point is tolerance-equal to the
argument, and if no stored point is tolerance-equal to it `search` returns
false. -/
theorem C25_search_sound (t : KDTree) (p : Point) (hwf : t.WF)
    (hp : p.getDimensions = t.dimensions) :
    (∃ b, t.search p = .ok b) ∧
    (t.search p = .ok true → ∃ q ∈ t.root.points, p.equals q = true) ∧
    ((∀ q ∈ t.root.points, p.equals q = false) → t.search p = .ok false) := by
  rw [search_eq t hwf p hp]
  refine ⟨⟨_, rfl⟩, fun h => ?_, fun h => ?_⟩
  · exact searchP_true_mem t.dimensions p t.root 0 (by simpa using h)
  · rw [searchP_false_of_none t.dimensions p t.root 0 h]

/-- C30: on every well-formed tree, with or without the search-tree invariant,
and bounds of the tree's dimensionality, `rangeQuery` returns a sublist of the
stored points that pass the box test (so every returned point is stored and in
the box, and no node is returned twice), and it returns nothing when
`min[i] > max[i]` for some `i`. -/
theorem C30_rangeQuery_sound (t : KDTree) (hwf : t.WF) (min max : List ℚ)
    (hmin : min.length = t.dimensions) (hmax : max.length = t.dimensions) :
    ∃ res, t.rangeQuery min max = .ok res ∧
      res.Sublist (t.root.points.filter (inBox t.dimensions min max)) ∧
      (∀ q ∈ res, q ∈ t.root.points ∧ inBox t.dimensions min max q = true) ∧
      res.Subperm t.root.points ∧
      ((∃ i, i < t.dimensions ∧ max.getD i 0 < min.getD i 0) → res = []) := by
  have hsub := rangeSearchP_sublist t.dimensions min max t.root 0
  refine ⟨_, rangeQuery_eq t hwf min max hmin hmax, hsub, ?_, ?_, ?_⟩
  · intro q hq
    have := List.mem_filter.1 (hsub.subset hq)
    exact this
  · exact (hsub.trans (List.filter_sublist _)).subperm
  · rintro ⟨i, hi, hcross⟩
    have hnil : t.root.points.filter (inBox t.dimensions min max) = [] := by
      rw [List.filter_eq_nil_iff]
      intro q _
      simp [inBox_false_of_crossed t.dimensions min max i hi hcross q]
    rw [hnil] at hsub
    exact List.eq_nil_of_sublist_nil hsub

/-! ## Instances of the conditional theorems, third part -/

theorem C21_witness :
    exFourTree.clear.isEmpty = true ∧ exFourTree.clear.size = 0 ∧
    exFourTree.clear.clear = exFourTree.clear ∧
    ∃ fresh, KDTree.create exFourTree.getDimensions = .ok fresh ∧ fresh = exFourTree.clear ∧
      ∀ ops, fresh.run ops = exFourTree.clear.run ops ∧
        (fresh.run ops).size = (exFourTree.clear.run ops).size ∧
        (∀ p, (fresh.run ops).search p = (exFourTree.clear.run ops).search p) ∧
        (∀ p, (fresh.run ops).insert p = (exFourTree.clear.run ops).insert p) ∧
        (∀ p, (fresh.run ops).remove p = (exFourTree.clear.run ops).remove p) ∧
        (∀ min max, (fresh.run ops).rangeQuery min max =
          (exFourTree.clear.run ops).rangeQuery min max) ∧
        (∀ target, (fresh.run ops).nearestNeighbor target =
          (exFourTree.clear.run ops).nearestNeighbor target) ∧
        (∀ target k, (fresh.run ops).kNearestNeighbors target k =
          (exFourTree.clear.run ops).kNearestNeighbors target k) :=
  C21_clear_is_fresh exFourTree (by decide)

theorem C22_witness :
    (∃ t', KDTree.insert exFourTree ⟨[5, 5], "dup"⟩ = .ok t' ∧ t'.size = exFourTree.size + 1 ∧
      t'.isEmpty = false) ∧
    (∀ (d : Int) (ps : List Point), 0 < d → (∀ q ∈ ps, q.getDimensions = d.toNat) →
      ∃ t0 tn, KDTree.create d = .ok t0 ∧ t0.insertAll ps = .ok tn ∧ tn.size = ps.length) ∧
    (∃ t6, (KDTree.mk .nil 2).insertAll exSix = .ok t6 ∧ t6.size = 6) :=
  C22_insert_adds_one exFourTree ⟨[5, 5], "dup"⟩ exFourTree_WF rfl

theorem C25_witness :
    (∃ b, KDTree.search exFourTree ⟨[1, 1], ""⟩ = .ok b) ∧
    (KDTree.search exFourTree ⟨[1, 1], ""⟩ = .ok true →
      ∃ q ∈ exFourTree.root.points, Point.equals ⟨[1, 1], ""⟩ q = true) ∧
    ((∀ q ∈ exFourTree.root.points, Point.equals ⟨[1, 1], ""⟩ q = false) →
      KDTree.search exFourTree ⟨[1, 1], ""⟩ = .ok false) :=
  C25_search_sound exFourTree ⟨[1, 1], ""⟩ exFourTree_WF rfl

theorem C30_witness :
    ∃ res, exThreeTree.rangeQuery [9, 0] [6, 9] = .ok res ∧
      res.Sublist
        (exThreeTree.root.points.filter (inBox exThreeTree.dimensions [9, 0] [6, 9])) ∧
      (∀ q ∈ res, q ∈ exThreeTree.root.points ∧
        inBox exThreeTree.dimensions [9, 0] [6, 9] q = true) ∧
      res.Subperm exThreeTree.root.points ∧
      ((∃ i, i < exThreeTree.dimensions ∧
          ([6, 9] : List ℚ).getD i 0 < ([9, 0] : List ℚ).getD i 0) →
        res = []) :=
  C30_rangeQuery_sound exThreeTree exThreeTree_WF [9, 0] [6, 9] rfl rfl

/-! ## Claims on update, two-children deletion, the min-finder and k = 1 -/

/-- C23: in a tree built by inserting points no two of which are tolerance-equal,
`update(old, new)` for an inserted `old` and a `new` of the tree's dimensionality
not tolerance-equal to `old` returns, and afterwards `search(new)` is true and
`search(old)` is false; and on every well-formed tree, `update(old, new)` with
`old` tolerance-equal to no stored point returns and leaves the tree as it
was. -/
theorem C23_update_relocates (d : Int) (hd : 0 < d) (ps : List Point)
    (hps : ∀ p ∈ ps, p.getDimensions = d.toNat)
    (hdist : ps.Pairwise (fun a b => a.equals b = false)) (old new : Point)
    (hold : old ∈ ps) (hnew : new.getDimensions = d.toNat) (hne : old.equals new = false) :
    (∃ t0 t t', KDTree.create d = .ok t0 ∧ t0.insertAll ps = .ok t ∧
      t.update old new = .ok t' ∧ t'.search new = .ok true ∧ t'.search old = .ok false) ∧
    (∀ (u : KDTree) (o n : Point), u.WF → o.getDimensions = u.dimensions →
      n.getDimensions = u.dimensions → (∀ q ∈ u.root.points, o.equals q = false) →
      u.update o n = .ok u ∧ u.afterUpdate o n = u) := by
  refine ⟨?_, fun u o n hu ho hn habs => update_absent u hu o n ho hn habs⟩
  have hwf : (KDTree.mk (insertAllP d.toNat .nil ps) d.toNat).WF :=
    ⟨(create_WF d hd).1, insertAllP_WellDim _ ps _ (WellDim_nil _) hps⟩
  obtain ⟨hfound, hnone⟩ := deleteNodeP_built_none d.toNat ps hdist old hold
  have hwf1 := remove_WF _ hwf old
  have hwf2 := insert_WF _ hwf1 new hnew
  refine ⟨⟨.nil, d.toNat⟩, ⟨insertAllP d.toNat .nil ps, d.toNat⟩,
    ⟨insertNodeP d.toNat (deleteNodeP d.toNat (insertAllP d.toNat .nil ps) old 0) new 0,
      d.toNat⟩, create_eq d hd, insertAll_eq ps _ (create_WF d hd) hps, ?_, ?_, ?_⟩
  · have hcond : ¬ (old.getDimensions ≠ d.toNat ∨ new.getDimensions ≠ d.toNat) := by
      simp [hps old hold, hnew]
    unfold KDTree.update
    simp only
    rw [if_neg hcond, if_neg (by simp [hne]), remove_eq _ hwf old (hps old hold)]
    simp only [bind, Except.bind, decide_eq_true (deleteNodeP_count_lt d.toNat old _ 0 hfound),
      if_true]
    exact insert_eq _ hwf1 new hnew
  · rw [search_eq _ hwf2 new hnew]
    exact congrArg Except.ok (searchP_insert_self d.toNat new _ 0)
  · rw [search_eq _ hwf2 old (hps old hold)]
    refine congrArg Except.ok (searchP_false_of_none _ old _ 0 ?_)
    intro q hq
    rcases (insertNodeP_mem d.toNat new q _ 0).1 hq with rfl | hq
    · exact hne
    · exact hnone q hq

/-- C26 (defect in `deleteNode`, the one of C1): `exFourTree` satisfies the
search-tree invariant and its root (5,5) has two children; after `remove((5,5))`
the root holds (7,7), the minimum of the former right subtree, and the left
subtree is unchanged, but the right subtree is empty, whereas the former right
subtree without one occurrence of (7,7) still holds (8,8). -/
theorem C26_two_children_delete_empties_right :
    exFourTree.WF ∧ exFourTree.root.Inv 2 0 ∧
    exFourTree.root = .node ⟨[5, 5], "a"⟩ (.node ⟨[3, 3], "b"⟩ .nil .nil)
      (.node ⟨[7, 7], "c"⟩ .nil (.node ⟨[8, 8], "d"⟩ .nil .nil)) ∧
    exFourTree.remove ⟨[5, 5], ""⟩ =
      .ok (true, ⟨.node ⟨[7, 7], "c"⟩ (.node ⟨[3, 3], "b"⟩ .nil .nil) .nil, 2⟩) ∧
    KDNode.nil.points = [] ∧
    (KDNode.node ⟨[7, 7], "c"⟩ .nil (.node ⟨[8, 8], "d"⟩ .nil .nil)).points.erase
      ⟨[7, 7], "c"⟩ = [⟨[8, 8], "d"⟩] := by
  refine ⟨exFourTree_WF, ?_, rfl, ?_, rfl, ?_⟩
  · norm_num [exFourTree, KDNode.Inv, KDNode.points, Point.coord]
  · norm_num [KDTree.remove, exFourTree, Point.getDimensions, deleteNode, Point.equals,
      tolerance, findMin, takeIfSmaller, Point.getCoordinate, deleteNodeNull, KDTree.size,
      countNodes, bind, Except.bind, pure, Except.pure]
  · simp [KDNode.points]

/-- C27: on a non-empty well-formed subtree that satisfies the search-tree
invariant with its root's discriminator equal to `currentDim`, and for every
ranking dimension `r` below the dimensionality, `findMin` returns a node whose
point is a point of the subtree and whose coordinate `r` is at most coordinate
`r` of every point of the subtree. -/
theorem C27_findMin_is_minimum (dims : Nat) (n : KDNode) (hn : n.WellDim dims)
    (hne : n ≠ .nil) (currentDim : Nat) (hc : currentDim < dims)
    (hinv : n.Inv dims currentDim) (r : Nat) (hr : r < dims) :
    ∃ mp ml mr, findMin dims n r currentDim = .ok (.node mp ml mr) ∧ mp ∈ n.points ∧
      ∀ q ∈ n.points, mp.coord r ≤ q.coord r := by
  have hmin := findMinP_leAll dims n currentDim hinv r
  rw [Nat.mod_eq_of_lt hc] at hmin
  have hsub := findMinP_subset dims n r currentDim
  cases hm : findMinP dims n r currentDim with
  | nil => exact absurd hm (findMinP_ne_nil dims n r currentDim hne)
  | node mp ml mr =>
    rw [hm] at hsub
    refine ⟨mp, ml, mr, ?_, hsub mp (by simp [KDNode.points]), hmin mp ml mr hm⟩
    rw [findMin_eq dims n hn r hr currentDim, hm]

/-- C29: on every non-empty well-formed tree, with or without the search-tree
invariant, and a target of the tree's dimensionality, `nearestNeighbor` returns a
point and `kNearestNeighbors(target, 1)` returns the one-element list holding
exactly that point. -/
theorem C29_one_nearest_is_nearestNeighbor (t : KDTree) (hwf : t.WF)
    (hne : t.isEmpty = false) (target : List ℚ) (ht : target.length = t.dimensions) :
    ∃ best, t.nearestNeighbor target = .ok best ∧
      t.kNearestNeighbors target 1 = .ok [best] := by
  obtain ⟨root, dims⟩ := t
  simp only at ht
  cases root with
  | nil => simp [KDTree.isEmpty] at hne
  | node rp l r =>
    refine ⟨_, nearestNeighbor_eq dims rp l r hwf target ht, ?_⟩
    rw [kNearestNeighbors_eq dims rp l r hwf target ht 1 (by decide)]
    have h1 : (1 : Int).toNat = 1 := rfl
    rw [h1, kSearchP_one_root]
    rfl

/-! ## Instances of the conditional theorems, fourth part -/

theorem exSplicedTree_WF : exSplicedTree.WF := by
  refine ⟨by decide, ?_⟩
  intro q hq
  simp only [exSplicedTree, KDNode.points, List.mem_cons, List.mem_append, List.append_nil,
    List.nil_append, List.not_mem_nil, or_false] at hq
  rcases hq with rfl | rfl <;> rfl

theorem exFourTree_Inv : exFourTree.root.Inv 2 0 := by
  norm_num [exFourTree, KDNode.Inv, KDNode.points, Point.coord]

theorem C23_witness :
    (∃ t0 t t', KDTree.create 2 = .ok t0 ∧ t0.insertAll exFour = .ok t ∧
      t.update ⟨[5, 5], "a"⟩ ⟨[6, 1], "z"⟩ = .ok t' ∧
      t'.search ⟨[6, 1], "z"⟩ = .ok true ∧ t'.search ⟨[5, 5], "a"⟩ = .ok false) ∧
    (∀ (u : KDTree) (o n : Point), u.WF → o.getDimensions = u.dimensions →
      n.getDimensions = u.dimensions → (∀ q ∈ u.root.points, o.equals q = false) →
      u.update o n = .ok u ∧ u.afterUpdate o n = u) :=
  C23_update_relocates 2 (by decide) exFour exFour_dims exFour_distinct ⟨[5, 5], "a"⟩
    ⟨[6, 1], "z"⟩ (by simp [exFour]) rfl
    (by
      simp only [Point.equals, List.length_cons, List.zip_cons_cons, List.zip_nil_right,
        List.all_cons, List.all_nil, tolerance]
      norm_num [abs_of_nonneg, abs_of_neg])

theorem C27_witness :
    ∃ mp ml mr, findMin 2 exFourTree.root 1 0 = .ok (.node mp ml mr) ∧
      mp ∈ exFourTree.root.points ∧ ∀ q ∈ exFourTree.root.points, mp.coord 1 ≤ q.coord 1 :=
  C27_findMin_is_minimum 2 exFourTree.root exFourTree_WF.2 (by simp [exFourTree]) 0
    (by decide) exFourTree_Inv 1 (by decide)

theorem C29_witness :
    ∃ best, exSplicedTree.nearestNeighbor [9, 0] = .ok best ∧
      exSplicedTree.kNearestNeighbors [9, 0] 1 = .ok [best] :=
  C29_one_nearest_is_nearestNeighbor exSplicedTree exSplicedTree_WF rfl [9, 0] rfl

/-! ## Claim on the balanced bulk build -/

/-- C28 (amended): with an `std::nth_element` that honours its contract, positive
dimensionality, indices `left <= right <= length` and a vector in which every
point of `points[left..right)` has at least `dimensions` coordinates, `buildTree`
returns a tree with exactly `right - left` nodes whose points are a rearrangement
of `points[left..right)`; at every node with `n` nodes the left subtree has
`n / 2` nodes and the right one `n - 1 - n / 2`, so the two sizes differ by at
most 1, and the height is at most `log2(n) + 1` (rounded down). -/
theorem C28_buildTree_balanced (nth : NthElement) (hnth : NthElementSpec nth) (dims : Nat)
    (hd : 0 < dims) (points : List Point) (depth left right : Nat)
    (hlr : left ≤ right) (hr : right ≤ points.length)
    (hdim : ∀ p ∈ (points.drop left).take (right - left), dims ≤ p.coordinates.length) :
    ∃ t points', buildTree nth dims points depth left right = .ok (t, points') ∧
      countNodes t = right - left ∧
      t.points.Perm ((points.drop left).take (right - left)) ∧
      Balanced t ∧ AlmostEven t ∧ height t ≤ Nat.log 2 (right - left) + 1 := by
  obtain ⟨t, points', e, _, _, _, _, hperm, hbal⟩ :=
    buildTree_spec nth hnth dims hd (right - left) points depth left right rfl hlr hr hdim
  have hcount : countNodes t = right - left := by
    rw [countNodes_eq_length, hperm.length_eq, range_length points left right hlr hr]
  refine ⟨t, points', e, hcount, hperm, hbal, almostEven_of_balanced t hbal, ?_⟩
  rw [← hcount]
  exact height_le_log t hbal

/-! ## Instance of the bulk-build theorem -/

theorem exSix_dims2 : ∀ p ∈ exSix, p.coordinates.length = 2 := by
  intro p hp
  simp only [exSix, List.mem_cons, List.mem_singleton, List.not_mem_nil, or_false] at hp
  rcases hp with rfl | rfl | rfl | rfl | rfl | rfl <;> rfl

/-- C28 (counterexample): `exRagged` holds a point without coordinates; with
`left = 0` and `right = 2` inside the vector, the comparator's `getCoordinate`
throws `std::out_of_range` out of `nth_element`, and `buildTree` returns no tree. -/
theorem C28_counterexample :
    NthElementSpec nthBySorting ∧ (0 : Nat) ≤ 2 ∧ 2 ≤ exRagged.length ∧
      buildTree nthBySorting 2 exRagged 0 0 2 = .error .outOfRange := by
  refine ⟨nthBySorting_spec, by decide, by decide, ?_⟩
  rw [buildTree]
  simp [exRagged, nthBySorting, insertBefore, coordLess, Point.getCoordinate, bind,
    Except.bind, pure, Except.pure]

theorem C28_witness :
    ∃ t points', buildTree nthBySorting 2 exSix 0 1 6 = .ok (t, points') ∧
      countNodes t = 6 - 1 ∧
      t.points.Perm ((exSix.drop 1).take (6 - 1)) ∧
      Balanced t ∧ AlmostEven t ∧ height t ≤ Nat.log 2 (6 - 1) + 1 :=
  C28_buildTree_balanced nthBySorting nthBySorting_spec 2 (by decide) exSix 0 1 6
    (by decide) (by decide)
    (fun p hp => le_of_eq (exSix_dims2 p (List.mem_of_mem_drop (List.mem_of_mem_take hp))).symm)

end MiniKD
